import Mathlib

/-! # Backboard repository state (`state.go`)

A shallow embedding of the commit collection, the history loader, the
review-request synchroniser and the repository refresh of `state.go`,
followed by theorems about them.

Conventions of the embedding.

* A Go `string` and a Go `[]byte` are both a list of byte values
  (`GoString`); `string(b)` for a byte slice `b` is the identity.
* A Go `map[string]V` is a function `GoString → Option V`; a `nil` map and an
  empty map read the same, and `m[k] = v` is `GoMap.set`.
* A pointer is an address into a heap (`Heap`) that holds the repository
  structs and the maps their fields point to; a struct copy copies addresses,
  not maps.
* A function with effects is a function from a state to an outcome and a
  state (`M`); an outcome is a value, an `error`, or a panic (`Fault`).
* `crypto/sha1`, `time.Parse`, `filepath.Join`, the subprocess wrappers
  `capture` and `spawn`, the review-request service, the clock and the SQL
  engine's two aggregate queries are collaborators outside `state.go`; they
  are fields of `Env`. The tables that `state.go` writes are modelled with
  their keys, and every statement can fail by a schedule carried in `DB`.
* The page loop of `syncRepo` is bounded by a `fuel` argument; log output is
  not modelled.
-/

set_option linter.dupNamespace false

namespace Backboard

/-! ## Strings and maps -/

/-- Go `string` / `[]byte`: a sequence of byte values. -/
abbrev GoString := List Nat

/-- The bytes of an ASCII literal. -/
def str (s : String) : GoString := s.toList.map Char.toNat

/-- Go `map[string]V`. -/
abbrev GoMap (V : Type) := GoString → Option V

/-- The empty (or `nil`) map. -/
def GoMap.empty {V : Type} : GoMap V := fun _ => none

/-- The assignment `m[k] = v`. -/
def GoMap.set {V : Type} (m : GoMap V) (k : GoString) (v : V) : GoMap V :=
  fun k' => if k' = k then some v else m k'

/-- The test `_, ok := m[k]`. -/
def GoMap.has {V : Type} (m : GoMap V) (k : GoString) : Bool := (m k).isSome

/-! ## Commits and commit collections -/

/-- Go `time.Time`, as an instant on an integer time line. -/
abbrev Time := Int

/-- `type sha []byte`. -/
abbrev sha := GoString

/-- `type user struct`. -/
structure user where
  Email : GoString
deriving DecidableEq, Repr

/-- `type commit struct`. -/
structure commit where
  sha : sha
  CommitDate : Time
  Author : user
  title : GoString
  body : GoString
  merge : Bool
  oldestTag : GoString
deriving DecidableEq, Repr

/-- `func (c commit) MessageID() string`: the SHA-1 digest of the title bytes
followed by the body bytes. The digest function is the parameter `sha1`. -/
def commit.MessageID (sha1 : GoString → GoString) (c : commit) : GoString :=
  sha1 (c.title ++ c.body)

/-- `type commits struct`. -/
structure commits where
  commits : List commit
  shas : GoMap Nat
  messageIDs : GoMap Nat

/-- The zero value `commits{}`. -/
def commits.zero : Backboard.commits := ⟨[], GoMap.empty, GoMap.empty⟩

/-- `func (cs *commits) insert(c commit)`. -/
def commits.insert (sha1 : GoString → GoString) (cs : Backboard.commits) (c : commit) :
    Backboard.commits :=
  let cs1 := cs.commits ++ [c]
  { commits := cs1
    shas := cs.shas.set c.sha (cs1.length - 1)
    messageIDs := cs.messageIDs.set (c.MessageID sha1) (cs1.length - 1) }

/-- `func (cs commits) subtract(cs0 commits) []commit`. -/
def commits.subtract (cs cs0 : Backboard.commits) : List commit :=
  cs.commits.foldl (fun out c => if !(cs0.shas.has c.sha) then out ++ [c] else out) []

/-- The loop of `truncate`: `out` is the slice built so far, the list is what
remains to be visited. -/
def truncateLoop (id : sha) : List commit → List commit → List commit
  | [], out => out
  | c :: rest, out =>
    if c.sha = id then out
    else if !c.merge then truncateLoop id rest (out ++ [c])
    else truncateLoop id rest out

/-- `func (cs commits) truncate(sha sha) []commit`. -/
def commits.truncate (cs : Backboard.commits) (id : sha) : List commit :=
  truncateLoop id cs.commits []

/-- A collection obtained from the zero value by the inserts of `l`, in order. -/
def commits.build (sha1 : GoString → GoString) (l : List commit) : Backboard.commits :=
  l.foldl (commits.insert sha1) commits.zero

/-! ## Outcomes, string helpers, the line scanner -/

/-- How a Go call ends when it does not return normally: with an `error`
value (its message), or with a run-time panic. -/
inductive Fault where
  | error (msg : GoString)
  | panic
deriving DecidableEq, Repr

/-- A value, or the way the call failed. -/
abbrev Result (α : Type) := Except Fault α

/-- The slice index expression `xs[i]`: out of range is a run-time panic. -/
def index (xs : List GoString) (i : Nat) : Result GoString :=
  match xs[i]? with
  | some x => .ok x
  | none => .error .panic

/-- `strings.HasPrefix`. -/
def hasPrefix (s p : GoString) : Bool := p.isPrefixOf s

/-- `strings.TrimPrefix`. -/
def trimPrefix (s p : GoString) : GoString :=
  if hasPrefix s p then s.drop p.length else s

/-- `strings.Contains`. -/
def contains (s sub : GoString) : Bool := s.tails.any (fun t => hasPrefix t sub)

/-- The loop of `strings.Split` for a non-empty separator: the input left to
read, the bytes of a separator still to be skipped, the field being built. -/
def splitLoop (sep : GoString) : GoString → Nat → GoString → List GoString
  | [], _, cur => [cur]
  | _ :: rest, skip + 1, cur => splitLoop sep rest skip cur
  | c :: rest, 0, cur =>
    if hasPrefix (c :: rest) sep then cur :: splitLoop sep rest (sep.length - 1) []
    else splitLoop sep rest 0 (cur ++ [c])

/-- `strings.Split(s, sep)`, `sep` not empty. -/
def split (s sep : GoString) : List GoString := splitLoop sep s 0 []

/-- The lines of a text as `bufio.ScanLines` cuts them, before the carriage
return is dropped: a final line without a newline counts when it is not empty. -/
def rawLines : GoString → GoString → List GoString
  | [], cur => if cur = [] then [] else [cur]
  | c :: rest, cur => if c = 10 then cur :: rawLines rest [] else rawLines rest (cur ++ [c])

/-- `dropCR` of `bufio`: one trailing carriage return is removed. -/
def dropCR (l : GoString) : GoString := if l.getLast? = some 13 then l.dropLast else l

/-- `bufio.MaxScanTokenSize`. -/
def maxScanTokenSize : Nat := 64 * 1024

/-- The tokens `scanner.Scan()` / `scanner.Text()` yield over `out` with the
default line splitter: scanning stops for good at the first line that does
not fit the scanner's buffer. `loadCommits` never reads `scanner.Err()`. -/
def scanLines (out : GoString) : List GoString :=
  ((rawLines out []).takeWhile (fun l => decide (l.length < maxScanTokenSize))).map dropCR

/-! ## Identifiers in hexadecimal -/

/-- The value of one hexadecimal digit (`encoding/hex`). -/
def fromHexChar (c : Nat) : Option Nat :=
  if 48 ≤ c ∧ c ≤ 57 then some (c - 48)
  else if 97 ≤ c ∧ c ≤ 102 then some (c - 97 + 10)
  else if 65 ≤ c ∧ c ≤ 70 then some (c - 65 + 10)
  else none

/-- One hexadecimal digit in upper case. -/
def upperHexDigit (n : Nat) : Nat := if n < 10 then 48 + n else 55 + n

/-- `strconv.IsPrint` on the rune of a byte. -/
def isPrintByte (c : Nat) : Bool :=
  decide ((32 ≤ c ∧ c < 127) ∨ (161 ≤ c ∧ c ≤ 255 ∧ c ≠ 173))

/-- The UTF-8 encoding of the rune of a byte. -/
def utf8OfByte (c : Nat) : GoString := if c < 128 then [c] else [192 + c / 64, 128 + c % 64]

/-- `hex.InvalidByteError(c).Error()`: the format
`"encoding/hex: invalid byte: %#U"` applied to the rune of the byte `c`, that
is `U+` with four upper-case hexadecimal digits, then the quoted character
when it is printable. -/
def invalidByteError (c : Nat) : GoString :=
  str "encoding/hex: invalid byte: U+00" ++ [upperHexDigit (c / 16 % 16), upperHexDigit (c % 16)]
    ++ (if isPrintByte c then str " \'" ++ utf8OfByte c ++ str "\'" else [])

/-- `hex.DecodeString`: the first invalid byte is reported before an odd
length. -/
def hexDecode : GoString → Except GoString (List Nat)
  | [] => .ok []
  | [a] =>
    match fromHexChar a with
    | none => .error (invalidByteError a)
    | some _ => .error (str "encoding/hex: odd length hex string")
  | a :: b :: rest =>
    match fromHexChar a, fromHexChar b with
    | some x, some y =>
      match hexDecode rest with
      | .ok bs => .ok ((x * 16 + y) :: bs)
      | .error e => .error e
    | none, _ => .error (invalidByteError a)
    | some _, none => .error (invalidByteError b)

/-- `func parseSHA(s string) (sha, error)`. -/
def parseSHA (s : GoString) : Result sha :=
  match hexDecode s with
  | .error e => .error (.error e)
  | .ok shaBytes =>
    if shaBytes.length ≠ 20 then
      .error (.error (str "corrupt sha (" ++ str (toString shaBytes.length)
        ++ str " bytes intead of 20)"))
    else .ok shaBytes

/-! ## The release-tag pattern -/

/-- Regular expressions over bytes; `cls` is one byte within one of the
listed inclusive ranges. -/
inductive Regexp where
  | none
  | eps
  | cls (ranges : List (Nat × Nat))
  | cat (a b : Regexp)
  | alt (a b : Regexp)
  | star (a : Regexp)
deriving Repr

/-- Whether the expression matches the empty string. -/
def Regexp.nullable : Regexp → Bool
  | .none => false
  | .eps => true
  | .cls _ => false
  | .cat a b => a.nullable && b.nullable
  | .alt a b => a.nullable || b.nullable
  | .star _ => true

/-- Concatenation that absorbs the expression matching nothing. -/
def Regexp.mkCat : Regexp → Regexp → Regexp
  | .none, _ => .none
  | .eps, b => b
  | a, b => .cat a b

/-- Alternation that drops the expression matching nothing. -/
def Regexp.mkAlt : Regexp → Regexp → Regexp
  | .none, b => b
  | a, .none => a
  | a, b => .alt a b

/-- The derivative of an expression by one byte. -/
def Regexp.deriv (c : Nat) : Regexp → Regexp
  | .none => .none
  | .eps => .none
  | .cls rs => if rs.any (fun r => decide (r.1 ≤ c ∧ c ≤ r.2)) then .eps else .none
  | .cat a b =>
    if a.nullable then Regexp.mkAlt (Regexp.mkCat (a.deriv c) b) (b.deriv c)
    else Regexp.mkCat (a.deriv c) b
  | .alt a b => Regexp.mkAlt (a.deriv c) (b.deriv c)
  | .star a => Regexp.mkCat (a.deriv c) (.star a)

/-- Whether the whole of `s` matches: `MatchString` of a pattern written
between `^` and `$`. -/
def Regexp.matchString (r : Regexp) (s : GoString) : Bool :=
  (s.foldl (fun e c => e.deriv c) r).nullable

/-- One literal byte. -/
def Regexp.lit (c : Char) : Regexp := .cls [(c.toNat, c.toNat)]

/-- The pattern `a?`. -/
def Regexp.opt (a : Regexp) : Regexp := .alt a .eps

/-- The pattern `a+`. -/
def Regexp.plus (a : Regexp) : Regexp := .cat a (.star a)

/-- The patterns of a list one after the other. -/
def Regexp.seq : List Regexp → Regexp
  | [] => .eps
  | [a] => a
  | a :: rest => .cat a (Regexp.seq rest)

/-- The class `\d`. -/
def reDigit : Regexp := .cls [(48, 57)]

/-- The class `[1-9]`. -/
def reNonZero : Regexp := .cls [(49, 57)]

/-- The class `[a-zA-Z-]`. -/
def reLetter : Regexp := .cls [(97, 122), (65, 90), (45, 45)]

/-- The class `[0-9a-zA-Z-]`. -/
def reAlnum : Regexp := .cls [(48, 57), (97, 122), (65, 90), (45, 45)]

/-- The group `(0|[1-9]\d*)`. -/
def reNumber : Regexp := .alt (Regexp.lit '0') (.cat reNonZero (.star reDigit))

/-- The group `(?:0|[1-9]\d*|\d*[a-zA-Z-][0-9a-zA-Z-]*)`. -/
def rePreIdent : Regexp :=
  .alt (.alt (Regexp.lit '0') (.cat reNonZero (.star reDigit)))
    (.cat (.star reDigit) (.cat reLetter (.star reAlnum)))

/-- `var versionRegexp`: the pattern
`^v(0|[1-9]\d*)\.(0|[1-9]\d*)\.(0|[1-9]\d*)(?:-(P(?:\.P)*))?(?:\+(B(?:\.B)*))?$`
where `P` stands for `(?:0|[1-9]\d*|\d*[a-zA-Z-][0-9a-zA-Z-]*)` and `B` for
`[0-9a-zA-Z-]+`. All its classes are ASCII, so matching byte by byte and rune
by rune agree. -/
def versionRegexp : Regexp :=
  Regexp.seq [Regexp.lit 'v', reNumber, Regexp.lit '.', reNumber, Regexp.lit '.', reNumber,
    Regexp.opt (Regexp.seq [Regexp.lit '-', rePreIdent,
      .star (Regexp.seq [Regexp.lit '.', rePreIdent])]),
    Regexp.opt (Regexp.seq [Regexp.lit '+', Regexp.plus reAlnum,
      .star (Regexp.seq [Regexp.lit '.', Regexp.plus reAlnum])])]

/-! ## The program state: heap and storage -/

/-- A heap address; Go pointers and map values are addresses. -/
abbrev Addr := Nat

/-- `type pr struct`; `repo` is the pointer to the owning repository. -/
structure pr where
  repo : Addr
  number : Int
  mergedAt : Option Time
  labels : List GoString
deriving DecidableEq, Repr

/-- `type repo struct`; a map field is `none` for a `nil` map and the address
of the map object otherwise. -/
structure repo where
  id : Int
  githubOwner : GoString
  githubRepo : GoString
  releaseBranches : List GoString
  masterCommits : commits
  branchCommits : Option Addr
  branchMergeBases : Option Addr
  masterPRs : Option Addr
  branchPRs : Option Addr
  lastRefresh : Time

/-- What lives on the heap: repository structs and the maps they point to. -/
inductive Obj where
  | repo (r : repo)
  | commitsMap (m : GoMap commits)
  | shaMap (m : GoMap sha)
  | prMap (m : GoMap pr)
  | prMapMap (m : GoMap Addr)

/-- The heap: the object at address `a` is the `a`-th entry. -/
abbrev Heap := List Obj

/-- The fields of `github.PullRequest` that `state.go` reads, through their
`Get…` accessors. -/
structure PullRequest where
  ID : Int
  Number : Int
  Title : GoString
  Body : GoString
  State : GoString
  MergedAt : Option Time
  BaseSHA : GoString
  BaseRef : GoString
  UserLogin : GoString
  UpdatedAt : Time
  Labels : List GoString
deriving DecidableEq, Repr

/-- A row of table `prs`. -/
structure PRRow where
  id : Int
  repo_id : Int
  number : Int
  title : GoString
  body : GoString
  isOpen : Bool
  merged_at : Option Time
  base_sha : GoString
  base_branch : GoString
  author_username : GoString
  updated_at : Option Time
deriving DecidableEq, Repr

/-- A row of table `pr_commits`. -/
structure PRCommitRow where
  pr_id : Int
  sha : GoString
  title : GoString
  body : GoString
  message_id : GoString
  author_email : GoString
  ordering : Int
deriving DecidableEq, Repr

/-- A row of table `pr_labels`. -/
structure PRLabelRow where
  pr_id : Int
  label : GoString
deriving DecidableEq, Repr

/-- The tables of `schema` that `state.go` writes, and the identifiers of the
rows of `repos`. -/
structure Tables where
  repos : List Int
  prs : List PRRow
  pr_commits : List PRCommitRow
  pr_labels : List PRLabelRow
deriving DecidableEq, Repr

/-- The storage: its tables, the failures the engine will report for the
statements to come (one entry per statement, `none` for a statement that goes
through; no entry left means no failure), and the number of `Exec` statements
issued so far. -/
structure DB where
  tables : Tables
  faults : List (Option GoString)
  execs : Nat
deriving DecidableEq, Repr

/-- The state a repository sync works on. -/
structure State where
  heap : Heap
  db : DB

/-- A row of the first query of `refresh`, as scanned. -/
structure MasterPRRow where
  number : Int
  merged_at : Option Time
  sha : GoString
  labels : List (Option GoString)
deriving DecidableEq, Repr

/-- A row of the second query of `refresh`, as scanned. -/
structure BranchPRRow where
  number : Int
  merged_at : Option Time
  message_id : GoString
  base_branch : GoString
  labels : List (Option GoString)
deriving DecidableEq, Repr

/-- The result set of a query: each row scans or fails to, and `rows.Err()`
at the end. -/
structure Rows (α : Type) where
  rows : List (Except GoString α)
  err : Option GoString

/-- The collaborators of `state.go`. -/
structure Env where
  /-- The digest of `crypto/sha1`. -/
  sha1 : GoString → GoString
  /-- The call `time.Parse(time.RFC3339, s)`. -/
  timeParse : GoString → Except GoString Time
  /-- The function `filepath.Join`. -/
  filepathJoin : List GoString → GoString
  /-- The subprocess wrapper `capture(args...)`: standard output or an error. -/
  capture : List GoString → Except GoString GoString
  /-- The subprocess wrapper `spawn(args...)`: `none` for success. -/
  spawn : List GoString → Option GoString
  /-- The call `ghClient.PullRequests.List` for owner, repository and page:
  the page and `res.NextPage`, or an error. -/
  list : GoString → GoString → Nat → Except GoString (List PullRequest × Nat)
  /-- The first query of `refresh` over the tables. -/
  queryMasterPRs : Tables → Except GoString (Rows MasterPRRow)
  /-- The second query of `refresh` over the tables. -/
  queryBranchPRs : Tables → Except GoString (Rows BranchPRRow)
  /-- The reading `time.Now().UTC()` of `refresh`. -/
  now : Time

/-! ## Computations over a state -/

/-- A computation over a state `σ`: its outcome and the state it leaves. The
state survives a failure. -/
def M (σ α : Type) : Type := σ → Result α × σ

/-- Return a value. -/
def M.pure {σ α : Type} (a : α) : M σ α := fun s => (.ok a, s)

/-- Sequence two computations; a failure of the first ends the sequence. -/
def M.bind {σ α β : Type} (m : M σ α) (f : α → M σ β) : M σ β := fun s =>
  match m s with
  | (.ok a, s1) => f a s1
  | (.error e, s1) => (.error e, s1)

instance {σ : Type} : Monad (M σ) where
  pure := M.pure
  bind := M.bind

/-- Fail. -/
def M.fail {σ α : Type} (f : Fault) : M σ α := fun s => (.error f, s)

/-- A `(value, error)` pair returned by a collaborator, the error returned
to the caller as it is. -/
def M.ofExcept {σ α : Type} (r : Except GoString α) : M σ α := fun s =>
  match r with
  | .ok a => (.ok a, s)
  | .error e => (.error (.error e), s)

/-- Lift a `Result` into a computation. -/
def M.ofResult {σ α : Type} (r : Result α) : M σ α := fun s => (r, s)

/-- A computation on the storage, run within the whole state. -/
def M.onDB {α : Type} (m : M DB α) : M State α := fun s =>
  match m s.db with
  | (r, db1) => (r, { s with db := db1 })

/-- Read the repository struct at an address (a wrong address is a nil
dereference). -/
def getRepo (a : Addr) : M State repo := fun s =>
  match s.heap[a]? with
  | some (.repo r) => (.ok r, s)
  | _ => (.error .panic, s)

/-- Assign to fields of the repository struct at an address. -/
def setRepo (a : Addr) (f : repo → repo) : M State Unit := fun s =>
  match s.heap[a]? with
  | some (.repo r) => (.ok (), { s with heap := s.heap.set a (.repo (f r)) })
  | _ => (.error .panic, s)

/-- Allocate an object. -/
def newObj (o : Obj) : M State Addr := fun s =>
  (.ok s.heap.length, { s with heap := s.heap ++ [o] })

/-- The assignment `m[k] = v` on a `map[string]commits` (on a `nil` map it
panics). -/
def setCommitsMap (m : Option Addr) (k : GoString) (v : commits) : M State Unit := fun s =>
  match m with
  | none => (.error .panic, s)
  | some a =>
    match s.heap[a]? with
    | some (.commitsMap f) => (.ok (), { s with heap := s.heap.set a (.commitsMap (f.set k v)) })
    | _ => (.error .panic, s)

/-- The assignment `m[k] = v` on a `map[string]sha`. -/
def setShaMap (m : Option Addr) (k : GoString) (v : sha) : M State Unit := fun s =>
  match m with
  | none => (.error .panic, s)
  | some a =>
    match s.heap[a]? with
    | some (.shaMap f) => (.ok (), { s with heap := s.heap.set a (.shaMap (f.set k v)) })
    | _ => (.error .panic, s)

/-- The assignment `m[k] = v` on a `map[string]*pr`. -/
def setPrMap (m : Option Addr) (k : GoString) (v : pr) : M State Unit := fun s =>
  match m with
  | none => (.error .panic, s)
  | some a =>
    match s.heap[a]? with
    | some (.prMap f) => (.ok (), { s with heap := s.heap.set a (.prMap (f.set k v)) })
    | _ => (.error .panic, s)

/-- The read `m[k]` on a `map[string]map[string]*pr`: `none` is the `nil`
inner map. -/
def getPrMapMap (m : Option Addr) (k : GoString) : M State (Option Addr) := fun s =>
  match m with
  | none => (.ok none, s)
  | some a =>
    match s.heap[a]? with
    | some (.prMapMap f) => (.ok (f k), s)
    | _ => (.error .panic, s)

/-- The assignment `m[k] = v` on a `map[string]map[string]*pr`. -/
def setPrMapMap (m : Option Addr) (k : GoString) (v : Addr) : M State Unit := fun s =>
  match m with
  | none => (.error .panic, s)
  | some a =>
    match s.heap[a]? with
    | some (.prMapMap f) => (.ok (), { s with heap := s.heap.set a (.prMapMap (f.set k v)) })
    | _ => (.error .panic, s)

/-! ## The history loader -/

/-- `func (r repo) path() string`. -/
def repo.path (env : Env) (r : repo) : GoString := env.filepathJoin [str "repos", r.githubRepo]

/-- `const commitFormat`. -/
def commitFormat : GoString := str "%H%x00%s%x00%cI%x00%aE%x00%P%x00%D"

/-- The inner loop of `loadCommits` over the ref names of one line: the
running `lastSeenTag` after them. -/
def scanRefNames (lastSeenTag : GoString) (refNames : List GoString) : GoString :=
  refNames.foldl (fun last refName =>
    if hasPrefix refName (str "tag: ") then
      let tag := trimPrefix refName (str "tag: ")
      if versionRegexp.matchString tag then tag else last
    else last) lastSeenTag

/-- One round of the scanner loop of `loadCommits`: the new `lastSeenTag`
and the commit to insert, or the failure that ends the call. -/
def parseLine (env : Env) (lastSeenTag : GoString) (text : GoString) :
    Result (GoString × commit) := do
  let fields := split text [0]
  let sha ← parseSHA (← index fields 0)
  let f2 ← index fields 2
  let commitDate ← match env.timeParse f2 with
    | .ok t => pure t
    | .error e => throw (Fault.error e)
  let authorEmail ← index fields 3
  let refNames := split (← index fields 5) (str ", ")
  let lastSeenTag := scanRefNames lastSeenTag refNames
  let f1 ← index fields 1
  let f4 ← index fields 4
  pure (lastSeenTag,
    { sha := sha, CommitDate := commitDate, Author := ⟨authorEmail⟩, title := f1, body := [],
      merge := decide (f4.count 32 > 0), oldestTag := lastSeenTag })

/-- The scanner loop of `loadCommits` over the lines left, from the current
`lastSeenTag` and collection. -/
def loadLoop (env : Env) :
    List GoString → GoString → Backboard.commits → Result Backboard.commits
  | [], _, cs => .ok cs
  | text :: rest, lastSeenTag, cs =>
    match parseLine env lastSeenTag text with
    | .error f => .error f
    | .ok (lastSeenTag1, c) => loadLoop env rest lastSeenTag1 (cs.insert env.sha1 c)

/-- The command line `args` of `loadCommits`. -/
def gitLogArgs (env : Env) (re : repo) (constraints : List GoString) : List GoString :=
  [str "git", str "-C", re.path env, str "log", str "--topo-order",
    str "--format=format:" ++ commitFormat] ++ constraints

/-- `func loadCommits(re repo, constraints ...string) (cs commits, err error)`. -/
def loadCommits (env : Env) (re : repo) (constraints : List GoString) :
    Result Backboard.commits :=
  match env.capture (gitLogArgs env re constraints) with
  | .error e => .error (.error e)
  | .ok out => loadLoop env (scanLines out) [] commits.zero

/-! ## Storage statements -/

/-- A statement reaches the engine: the failure scheduled for it, if any. -/
def DB.next (db : DB) : Option GoString × DB :=
  match db.faults with
  | [] => (none, db)
  | f :: rest => (f, { db with faults := rest })

/-- What `QueryRow(...).Scan(...)` gives. -/
inductive RowResult (α : Type) where
  | row (a : α)
  | noRows
  | failed (msg : GoString)

/-- `tx.Exec` of a statement whose effect on the tables is `op`. -/
def exec (op : Tables → Except GoString Tables) : M DB Unit := fun db =>
  match DB.next { db with execs := db.execs + 1 } with
  | (some e, db1) => (.error (.error e), db1)
  | (none, db1) =>
    match op db1.tables with
    | .ok t => (.ok (), { db1 with tables := t })
    | .error e => (.error (.error e), db1)

/-- `SELECT count(*) FROM pr_labels WHERE pr_id = $1`, scanned into an int. -/
def queryLabelCount (id : Int) (db : DB) : RowResult Nat × DB :=
  match db.next with
  | (some e, db1) => (.failed e, db1)
  | (none, db1) => (.row (db1.tables.pr_labels.filter (fun l => l.pr_id = id)).length, db1)

/-- `SELECT updated_at FROM prs WHERE id = $1`, scanned into a `time.Time`
(a NULL does not scan). The instant read is the instant that was written. -/
def queryUpdatedAt (id : Int) (db : DB) : RowResult Time × DB :=
  match db.next with
  | (some e, db1) => (.failed e, db1)
  | (none, db1) =>
    match db1.tables.prs.find? (fun r => r.id = id) with
    | none => (.noRows, db1)
    | some r =>
      match r.updated_at with
      | some t => (.row t, db1)
      | none => (.failed (str "sql: Scan error on column index 0"), db1)

/-- `UPSERT INTO prs (...) VALUES (...)`: the row with the same primary key
is replaced; `repo_id` references `repos`; `(repo_id, number)` is unique. -/
def upsertPR (row : PRRow) (t : Tables) : Except GoString Tables :=
  if row.repo_id ∉ t.repos then .error (str "foreign key violation")
  else if t.prs.any (fun r => r.id ≠ row.id ∧ r.repo_id = row.repo_id ∧ r.number = row.number)
  then .error (str "duplicate key value")
  else if t.prs.any (fun r => r.id = row.id) then
    .ok { t with prs := t.prs.map (fun r => if r.id = row.id then row else r) }
  else .ok { t with prs := t.prs ++ [row] }

/-- `DELETE FROM pr_commits WHERE pr_id = $1`. -/
def deleteCommits (id : Int) (t : Tables) : Except GoString Tables :=
  .ok { t with pr_commits := t.pr_commits.filter (fun r => r.pr_id ≠ id) }

/-- `INSERT INTO pr_commits (...) VALUES (...)`: `pr_id` references `prs`,
the primary key is `(pr_id, sha)`. -/
def insertCommit (row : PRCommitRow) (t : Tables) : Except GoString Tables :=
  if ¬ t.prs.any (fun r => r.id = row.pr_id) then .error (str "foreign key violation")
  else if t.pr_commits.any (fun r => r.pr_id = row.pr_id ∧ r.sha = row.sha)
  then .error (str "duplicate key value")
  else .ok { t with pr_commits := t.pr_commits ++ [row] }

/-- `DELETE FROM pr_labels WHERE pr_id = $1`. -/
def deleteLabels (id : Int) (t : Tables) : Except GoString Tables :=
  .ok { t with pr_labels := t.pr_labels.filter (fun r => r.pr_id ≠ id) }

/-- `INSERT INTO pr_labels (pr_id, label) VALUES ($1, $2)`: `pr_id`
references `prs`, the primary key is `(pr_id, label)`. -/
def insertLabel (row : PRLabelRow) (t : Tables) : Except GoString Tables :=
  if ¬ t.prs.any (fun r => r.id = row.pr_id) then .error (str "foreign key violation")
  else if t.pr_labels.any (fun r => r.pr_id = row.pr_id ∧ r.label = row.label)
  then .error (str "duplicate key value")
  else .ok { t with pr_labels := t.pr_labels ++ [row] }

/-- `crdb.ExecuteTx`: the body runs once; when it fails the tables are as
they were before it ran. -/
def executeTx (body : M DB Unit) : M DB Unit := fun db =>
  match body db with
  | (.ok _, db1) => (.ok (), db1)
  | (.error f, db1) => (.error f, { db1 with tables := db.tables })

/-! ## The review-request synchroniser -/

/-- `func isPRUpToDate(ctx, q, pr) (bool, error)`. -/
def isPRUpToDate (pr : PullRequest) : M DB Bool := fun db =>
  let rest : M DB Bool := fun db =>
    match queryUpdatedAt pr.ID db with
    | (.noRows, db1) => (.ok false, db1)
    | (.failed e, db1) => (.error (.error e), db1)
    | (.row updatedAt, db1) => (.ok (decide (updatedAt = pr.UpdatedAt)), db1)
  if pr.Labels.length ≠ 0 then
    match queryLabelCount pr.ID db with
    | (.noRows, db1) => (.ok false, db1)
    | (.failed e, db1) => (.error (.error e), db1)
    | (.row labelCount, db1) =>
      if labelCount ≠ pr.Labels.length then (.ok false, db1) else rest db1
  else rest db

/-- The loop of `syncPR` that inserts the commits, `i` the position of the
first one of the list. -/
def insertCommits (sha1 : GoString → GoString) (id : Int) : List commit → Nat → M DB Unit
  | [], _ => pure ()
  | c :: rest, i => do
    exec (insertCommit ⟨id, c.sha, c.title, c.body, c.MessageID sha1, c.Author.Email, i⟩)
    insertCommits sha1 id rest (i + 1)

/-- The loop of `syncPR` that inserts the labels. -/
def insertLabels (id : Int) : List GoString → M DB Unit
  | [] => pure ()
  | l :: rest => do
    if !(hasPrefix l (str "backport-")) then
      insertLabels id rest
    else
      exec (insertLabel ⟨id, l⟩)
      insertLabels id rest

/-- The transaction body of `syncPR`. -/
def syncPRBody (sha1 : GoString → GoString) (repoID : Int) (cs : Backboard.commits)
    (pr : PullRequest) : M DB Unit := do
  let ok ← isPRUpToDate pr
  if ok then
    pure ()
  else
    exec (upsertPR ⟨pr.ID, repoID, pr.Number, pr.Title, pr.Body, decide (pr.State = str "open"),
      pr.MergedAt, pr.BaseSHA, pr.BaseRef, pr.UserLogin, some pr.UpdatedAt⟩)
    exec (deleteCommits pr.ID)
    insertCommits sha1 pr.ID cs.commits 0
    exec (deleteLabels pr.ID)
    insertLabels pr.ID pr.Labels

/-- The revision constraints `prHead, "^"+prBase` that `syncPR` passes to
`loadCommits`. -/
def prConstraints (pr : PullRequest) : List GoString :=
  let prBase := pr.BaseSHA
  let prHead := str "refs/pull/" ++ str (toString pr.Number) ++ str "/head"
  [prHead, str "^" ++ prBase]

/-- `func syncPR(ctx, db, repo, pr) error`. -/
def syncPR (env : Env) (repo : Addr) (pr : PullRequest) : M State Unit := do
  let re ← getRepo repo
  match loadCommits env re (prConstraints pr) with
  | .error (.error msg) =>
    if contains msg (str "exit status 128") then pure () else M.fail (.error msg)
  | .error .panic => M.fail .panic
  | .ok cs => M.onDB (executeTx (syncPRBody env.sha1 re.id cs pr))

/-- The loop of `syncRepo` that fetches the pages: `fuel` bounds the number
of pages asked for, `page` is `opts.Page`, `allPRs` what was fetched so far.
`none` when the bound is reached. -/
def listAll (env : Env) (owner name : GoString) :
    Nat → Nat → List PullRequest → DB → Option (Result (List PullRequest) × DB)
  | 0, _, _, _ => none
  | fuel + 1, page, allPRs, db =>
    match env.list owner name page with
    | .error e => some (.error (.error e), db)
    | .ok (prs, nextPage) =>
      let allPRs1 := allPRs ++ prs
      if nextPage = 0 then some (.ok allPRs1, db)
      else
        match prs.getLast? with
        | none => some (.error .panic, db)
        | some lastPR =>
          match isPRUpToDate lastPR db with
          | (.error f, db1) => some (.error f, db1)
          | (.ok true, db1) => some (.ok allPRs1, db1)
          | (.ok false, db1) => listAll env owner name fuel nextPage allPRs1 db1

/-- The loop of `syncRepo` that processes the requests, given in the order
in which they are processed (last fetched first). -/
def syncPRs (env : Env) (repo : Addr) : List PullRequest → M State Unit
  | [] => pure ()
  | p :: rest => fun s =>
    match syncPR env repo p s with
    | (.ok _, s1) => syncPRs env repo rest s1
    | (.error (.error msg), s1) =>
      if p.MergedAt = none ∧ p.State = str "closed" then syncPRs env repo rest s1
      else (.error (.error msg), s1)
    | (.error .panic, s1) => (.error .panic, s1)

/-! ## The repository refresh and the sync of one repository -/

/-- `db.Query` of a query whose result over the tables is `q`. -/
def query {α : Type} (q : Tables → Except GoString (Rows α)) : M DB (Rows α) := fun db =>
  match db.next with
  | (some e, db1) => (.error (.error e), db1)
  | (none, db1) =>
    match q db1.tables with
    | .ok rows => (.ok rows, db1)
    | .error e => (.error (.error e), db1)

/-- The labels appended to a `pr` from the scanned array: the valid ones. -/
def validLabels (labels : List (Option GoString)) : List GoString := labels.filterMap id

/-- The value of a `(sha, error)` pair: `nil` with an error. -/
def shaOrNil (r : Result sha) : sha :=
  match r with
  | .ok v => v
  | .error _ => []

/-- The loop of `refresh` over the release branches left. The merge base is
assigned to the map before the error of `parseSHA` is looked at. -/
def refreshBranches (env : Env) (r : Addr) : List GoString → M State Unit
  | [] => pure ()
  | branch :: rest => do
    let cs ← M.ofResult (loadCommits env (← getRepo r) [branch, str "^master"])
    setCommitsMap (← getRepo r).branchCommits branch cs
    let out ← M.ofExcept (env.capture [str "git", str "-C", (← getRepo r).path env,
      str "merge-base", str "master", branch])
    setShaMap (← getRepo r).branchMergeBases branch (shaOrNil (parseSHA out))
    let _ ← M.ofResult (parseSHA out)
    refreshBranches env r rest

/-- The loop of `refresh` over the rows of its first query. -/
def fillMasterPRs (r : Addr) : List (Except GoString MasterPRRow) → M State Unit
  | [] => pure ()
  | .error e :: _ => M.fail (.error e)
  | .ok row :: rest => do
    let p : pr := ⟨r, row.number, row.merged_at, validLabels row.labels⟩
    setPrMap (← getRepo r).masterPRs row.sha p
    fillMasterPRs r rest

/-- The statement `if r.branchPRs[messageID] == nil { r.branchPRs[messageID] =
map[string]*pr{} }`. -/
def ensureInner (r : Addr) (messageID : GoString) : M State Unit := do
  match ← getPrMapMap (← getRepo r).branchPRs messageID with
  | some _ => pure ()
  | none => do
    let a ← newObj (.prMap GoMap.empty)
    setPrMapMap (← getRepo r).branchPRs messageID a

/-- The loop of `refresh` over the rows of its second query. -/
def fillBranchPRs (r : Addr) : List (Except GoString BranchPRRow) → M State Unit
  | [] => pure ()
  | .error e :: _ => M.fail (.error e)
  | .ok row :: rest => do
    let p : pr := ⟨r, row.number, row.merged_at, validLabels row.labels⟩
    ensureInner r row.message_id
    setPrMap (← getPrMapMap (← getRepo r).branchPRs row.message_id) row.base_branch p
    fillBranchPRs r rest

/-- The check `if err := rows.Err(); err != nil`. -/
def rowsErr {α : Type} (rows : Rows α) : M State Unit :=
  match rows.err with
  | some e => M.fail (.error e)
  | none => pure ()

/-- `func (r *repo) refresh(db *sql.DB) error`, `r` the address of the struct. -/
def repo.refresh (env : Env) (r : Addr) : M State Unit := do
  let cs ← M.ofResult (loadCommits env (← getRepo r) [str "master"])
  setRepo r (fun x => { x with masterCommits := cs })
  let bc ← newObj (.commitsMap GoMap.empty)
  setRepo r (fun x => { x with branchCommits := some bc })
  let mb ← newObj (.shaMap GoMap.empty)
  setRepo r (fun x => { x with branchMergeBases := some mb })
  refreshBranches env r (← getRepo r).releaseBranches
  let mp ← newObj (.prMap GoMap.empty)
  setRepo r (fun x => { x with masterPRs := some mp })
  let rows ← M.onDB (query env.queryMasterPRs)
  fillMasterPRs r rows.rows
  rowsErr rows
  let bp ← newObj (.prMapMap GoMap.empty)
  setRepo r (fun x => { x with branchPRs := some bp })
  let rows ← M.onDB (query env.queryBranchPRs)
  fillBranchPRs r rows.rows
  rowsErr rows
  setRepo r (fun x => { x with lastRefresh := env.now })

/-- The end of `syncRepo`: `repoCopy := *repo`, the refresh of the copy, and
the assignment `*repo = repoCopy`. -/
def refreshAndPublish (env : Env) (repo : Addr) : M State Unit := do
  let repoCopy ← newObj (.repo (← getRepo repo))
  Backboard.repo.refresh env repoCopy
  let rc ← getRepo repoCopy
  setRepo repo (fun _ => rc)

/-- The rest of `syncRepo` from a point of its processing loop on: the
requests `todo` still to be processed, in that order, then the refresh of a
copy and its publication. -/
def syncFrom (env : Env) (repo : Addr) (todo : List PullRequest) : M State Unit := do
  syncPRs env repo todo
  refreshAndPublish env repo

/-- What `syncRepo` does once the requests are fetched: process them from
the last fetched to the first, then refresh a copy and publish it. -/
def syncRepoTail (env : Env) (repo : Addr) (allPRs : List PullRequest) : M State Unit :=
  syncFrom env repo allPRs.reverse

/-- `func syncRepo(ctx, ghClient, db, repo *repo) error`; `none` when the
page bound `fuel` is reached. -/
def syncRepo (env : Env) (fuel : Nat) (repo : Addr) (s : State) :
    Option (Result Unit × State) :=
  match getRepo repo s with
  | (.error f, s0) => some (.error f, s0)
  | (.ok re, _) =>
    match env.spawn [str "git", str "-C", re.path env, str "fetch", str "--tags"] with
    | some e => some (.error (.error e), s)
    | none =>
      match listAll env re.githubOwner re.githubRepo fuel 0 [] s.db with
      | none => none
      | some (.error f, db1) => some (.error f, { s with db := db1 })
      | some (.ok allPRs, db1) => some (syncRepoTail env repo allPRs { s with db := db1 })

/-! ## Specification-side definitions -/

/-- `p` is the position of the last commit of `l` whose key under `key` is `k`. -/
def IsLastPosition (key : commit → GoString) (l : List commit) (k : GoString) (p : Nat) : Prop :=
  (∃ c, l[p]? = some c ∧ key c = k) ∧ ∀ j c, p < j → l[j]? = some c → key c ≠ k

/-- The ref decorations of a log line: its sixth field, cut at `", "`. -/
def decorations (text : GoString) : List GoString :=
  match (split text [0])[5]? with
  | some d => split d (str ", ")
  | none => []

/-- The subject field of a log line, if it has one. -/
def subject (text : GoString) : Option GoString := (split text [0])[1]?

/-- The tag `T` of a decoration of the form `tag: T` with `T` matching the
semantic-versioning pattern. -/
def releaseTag (d : GoString) : Option GoString :=
  if hasPrefix d (str "tag: ") ∧ versionRegexp.matchString (d.drop 5) then some (d.drop 5)
  else none

/-- The most recently seen valid release tag among decorations in traversal
order: the last one, or `start` when there is none. -/
def lastReleaseTag (start : GoString) (ds : List GoString) : GoString :=
  ((ds.filterMap releaseTag).getLast?).getD start

/-- The objects of `h0` are where they were and as they were in `h`. -/
def Old (h0 h : Heap) : Prop := ∀ a : Nat, a < h0.length → h[a]? = h0[a]?

/-- Every inner map that the `branchPRs` map of `rv` points to, when that map
lies above `c`, lies above `c` too. -/
def InnerFresh (c : Nat) (rv : repo) (h : Heap) : Prop :=
  ∀ (a : Nat) f, rv.branchPRs = some a → c < a → h[a]? = some (.prMapMap f) →
    ∀ key (b : Nat), f key = some b → c < b

/-- How far `refresh` has got on a copy, at address `c`, of the struct `re`:
the fields assigned in this pass are the loaded history, maps allocated above
`c`, and the clock reading. -/
def Stage (env : Env) (re : repo) (c : Nat) (k : Nat) (rv : repo) : Prop :=
  rv.id = re.id ∧ rv.githubOwner = re.githubOwner ∧ rv.githubRepo = re.githubRepo
  ∧ rv.releaseBranches = re.releaseBranches
  ∧ (1 ≤ k → loadCommits env re [str "master"] = .ok rv.masterCommits)
  ∧ (2 ≤ k → ∃ a : Nat, rv.branchCommits = some a ∧ c < a)
  ∧ (3 ≤ k → ∃ a : Nat, rv.branchMergeBases = some a ∧ c < a)
  ∧ (4 ≤ k → ∃ a : Nat, rv.masterPRs = some a ∧ c < a)
  ∧ (5 ≤ k → ∃ a : Nat, rv.branchPRs = some a ∧ c < a)
  ∧ (6 ≤ k → rv.lastRefresh = env.now)

/-- The invariant of `refresh` running on the copy at `c`, over a heap that
started as `h0`. -/
def Inv (env : Env) (h0 : Heap) (re : repo) (c : Nat) (k : Nat) (s : State) : Prop :=
  Old h0 s.heap ∧ h0.length ≤ c ∧
    ∃ rv, s.heap[c]? = some (.repo rv) ∧ Stage env re c k rv ∧ InnerFresh c rv s.heap

/-- From a state satisfying `P`, the computation ends in `Q` when it returns
and in `R` when it fails. -/
def Spec {α : Type} (P : State → Prop) (m : M State α) (Q : α → State → Prop)
    (R : State → Prop) : Prop :=
  ∀ s, P s → match m s with
    | (.ok a, s1) => Q a s1
    | (.error _, s1) => R s1

/-! ## Example inputs -/

deriving instance DecidableEq for Except

/-- An example line of `git log` output in `commitFormat`: identifier (forty
times one hexadecimal digit), subject, date, author, one parent, decorations. -/
def exLine (c : Char) (subject deco : String) : GoString :=
  List.replicate 40 c.toNat ++ [0] ++ str subject ++ [0] ++ str "2020-05-19T00:00:00Z" ++ [0]
    ++ str "dev@example.com" ++ [0] ++ List.replicate 40 'f'.toNat ++ [0] ++ str deco

/-- An example history of two commits with the same subject; the newer one
carries a release tag and a tag that is not a release. -/
def exLog : GoString :=
  exLine 'a' "fix" "HEAD -> master, tag: v1.2.3, tag: latest" ++ [10] ++ exLine 'b' "fix" ""

/-- An example digest of twenty bytes: the first twenty bytes of its input. -/
def exDigest (x : GoString) : GoString := x.take 20

/-- A commit with title `ab` and an empty body. -/
def exCommitAB : commit := ⟨[], 0, ⟨[]⟩, str "ab", str "", false, []⟩

/-- A commit with title `a` and body `b`. -/
def exCommitA : commit := ⟨[], 0, ⟨[]⟩, str "a", str "b", false, []⟩

/-- An open, unmerged request; its head ref is the one missing upstream in `exEnv`. -/
def exOpenPR : PullRequest :=
  ⟨107, 7, str "t", str "b", str "open", none, str "d0", str "master", str "bob", 1000, []⟩

/-- An open, unmerged request whose history load fails otherwise in `exEnv`. -/
def exFailPR : PullRequest :=
  ⟨108, 8, str "t", str "b", str "open", none, str "d0", str "master", str "bob", 1000, []⟩

/-- An open request with one label that is not a backport marker. -/
def exLabelPR : PullRequest :=
  ⟨109, 9, str "t", str "b", str "open", none, str "d0", str "master", str "bob", 1000,
    [str "C-bug"]⟩

/-- An example environment: the identity stands in for the digest, every date
parses, the history of `master` is `exLog`, the branch `release-1.0` has no
commit of its own and a merge base, the head of request 7 is missing
(`exit status 128`), any other `git` call fails with `exit status 1`, the
service lists `prs` on one page, and the two queries of `refresh` find no row. -/
def exEnv (prs : List PullRequest) : Env where
  sha1 := id
  timeParse := fun _ => .ok 0
  filepathJoin := fun l => l.flatten
  capture := fun args =>
    if args[6]? = some (str "refs/pull/7/head") then .error (str "exit status 128")
    else if args[6]? = some (str "master") then .ok exLog
    else if args[6]? = some (str "release-1.0") then .ok []
    else if args[3]? = some (str "merge-base") then .ok (List.replicate 40 'b'.toNat)
    else .error (str "exit status 1")
  spawn := fun _ => none
  list := fun _ _ _ => .ok (prs, 0)
  queryMasterPRs := fun _ => .ok ⟨[], none⟩
  queryBranchPRs := fun _ => .ok ⟨[], none⟩
  now := 1

/-- An example repository with one release branch, never refreshed. -/
def exRepo : repo :=
  ⟨1, str "cockroachdb", str "cockroach", [str "release-1.0"], commits.zero, none, none, none,
    none, 0⟩

/-- An example storage: the repository row, nothing else, no failure to come. -/
def exDB : DB := ⟨⟨[1], [], [], []⟩, [], 0⟩

/-- An example state: the published struct at address 0. -/
def exState : State := ⟨[.repo exRepo], exDB⟩

/-- The `lastRefresh` of the repository struct at an address. -/
def lastRefreshAt (s : State) (a : Addr) : Option Time :=
  match s.heap[a]? with
  | some (.repo r) => some r.lastRefresh
  | _ => none

/-! # Theorems -/

/-! ## The commit collection: `subtract`, `truncate`, the indices, `MessageID` -/

/-! ## The commit collection -/

theorem subtract_foldl (m : GoMap Nat) (l out : List commit) :
    l.foldl (fun out c => if !(m.has c.sha) then out ++ [c] else out) out
      = out ++ l.filter (fun c => !(m.has c.sha)) := by
  induction l generalizing out with
  | nil => simp
  | cons c rest ih =>
    simp only [List.foldl_cons, ih, List.filter_cons]
    by_cases h : m.has c.sha = true <;> simp [h]

theorem subtract_eq_filter (cs other : Backboard.commits) :
    cs.subtract other = cs.commits.filter (fun c => !(other.shas.has c.sha)) := by
  unfold commits.subtract
  rw [subtract_foldl]
  simp

/-- C1. `cs.subtract(other)` is the subsequence of the ordered commits of `cs`,
in their order, made of exactly the commits whose identifier is not a key of
the identifier index of `other`. Nothing else of `other` is looked at (a
collection with the same identifier index gives the same result, whatever its
fingerprint index), and against the empty collection the result is the whole
ordered sequence. -/
theorem subtract_spec (cs other : Backboard.commits) :
    cs.subtract other = cs.commits.filter (fun c => !(other.shas.has c.sha))
    ∧ (cs.subtract other).Sublist cs.commits
    ∧ (∀ c, c ∈ cs.subtract other ↔ c ∈ cs.commits ∧ other.shas c.sha = none)
    ∧ (∀ other2 : Backboard.commits, other2.shas = other.shas →
        cs.subtract other2 = cs.subtract other)
    ∧ cs.subtract commits.zero = cs.commits := by
  have h := subtract_eq_filter cs
  refine ⟨h other, ?_, ?_, ?_, ?_⟩
  · rw [h]; exact List.filter_sublist _
  · intro c
    rw [h]
    simp [GoMap.has, List.mem_filter]
  · intro o ho
    rw [h, h, ho]
  · rw [h]
    simp [commits.zero, GoMap.has, GoMap.empty]

theorem build_append (sha1 : GoString → GoString) (l : List commit) (c : commit) :
    commits.build sha1 (l ++ [c]) = (commits.build sha1 l).insert sha1 c := by
  simp [commits.build, List.foldl_append]

theorem build_commits (sha1 : GoString → GoString) (l : List commit) :
    (commits.build sha1 l).commits = l := by
  induction l using List.reverseRecOn with
  | nil => rfl
  | append_singleton l c ih => rw [build_append]; simp [commits.insert, ih]

theorem build_shas_isSome (sha1 : GoString → GoString) (l : List commit) (k : GoString) :
    ((commits.build sha1 l).shas k).isSome = true ↔ ∃ c ∈ l, c.sha = k := by
  induction l using List.reverseRecOn with
  | nil => simp [commits.build, commits.zero, GoMap.empty]
  | append_singleton l c ih =>
    rw [build_append]
    simp only [commits.insert, GoMap.set]
    by_cases h : k = c.sha
    · subst h
      simp only [if_true, Option.isSome_some, true_iff]
      exact ⟨c, by simp, rfl⟩
    · simp only [h, if_false, ih]
      constructor
      · rintro ⟨x, hx, hk⟩; exact ⟨x, by simp [hx], hk⟩
      · rintro ⟨x, hx, hk⟩
        simp at hx
        rcases hx with hx | hx
        · exact ⟨x, hx, hk⟩
        · subst hx; exact absurd hk.symm h

/-- C2. For a collection built from the empty one by any finite sequence of
inserts, identifiers repeated or not, `cs.subtract(cs)` is the empty sequence. -/
theorem subtract_self (sha1 : GoString → GoString) (l : List commit) :
    (commits.build sha1 l).subtract (commits.build sha1 l) = [] := by
  rw [subtract_eq_filter, build_commits]
  rw [List.filter_eq_nil_iff]
  intro c hc
  have := (build_shas_isSome sha1 l c.sha).2 ⟨c, hc, rfl⟩
  simp [GoMap.has, this]

theorem truncateLoop_eq (id : sha) (l out : List commit) :
    truncateLoop id l out
      = out ++ (l.takeWhile (fun c => decide (c.sha ≠ id))).filter (fun c => !c.merge) := by
  induction l generalizing out with
  | nil => simp [truncateLoop]
  | cons c rest ih =>
    unfold truncateLoop
    by_cases h : c.sha = id
    · simp [h, List.takeWhile_cons]
    · by_cases hm : c.merge = true
      · simp [h, hm, ih, List.takeWhile_cons, List.filter_cons]
      · simp [h, hm, ih, List.takeWhile_cons, List.filter_cons]

/-- C3. `cs.truncate(id)` is the non-merge commits, in their order, among the
commits that come strictly before the first commit whose identifier is `id`;
when no commit has that identifier it is all the non-merge commits; it is
empty when the first commit has identifier `id`; and no commit of the result
has identifier `id`. -/
theorem truncate_spec (cs : Backboard.commits) (id : sha) :
    cs.truncate id
      = (cs.commits.takeWhile (fun c => decide (c.sha ≠ id))).filter (fun c => !c.merge)
    ∧ ((∀ c ∈ cs.commits, c.sha ≠ id) →
        cs.truncate id = cs.commits.filter (fun c => !c.merge))
    ∧ (∀ pre c post, cs.commits = pre ++ c :: post → c.sha = id →
        (∀ x ∈ pre, x.sha ≠ id) →
        cs.truncate id = pre.filter (fun c => !c.merge))
    ∧ (∀ c rest, cs.commits = c :: rest → c.sha = id → cs.truncate id = [])
    ∧ (∀ c ∈ cs.truncate id, c.sha ≠ id ∧ c.merge = false) := by
  have h : cs.truncate id
      = (cs.commits.takeWhile (fun c => decide (c.sha ≠ id))).filter (fun c => !c.merge) := by
    simp [commits.truncate, truncateLoop_eq]
  refine ⟨h, ?_, ?_, ?_, ?_⟩
  · intro hall
    rw [h]
    congr 1
    rw [List.takeWhile_eq_self_iff]
    intro c hc
    simpa using hall c hc
  · intro pre c post hcs hc hpre
    rw [h, hcs]
    congr 1
    rw [List.takeWhile_append_of_pos (by intro x hx; simpa using hpre x hx)]
    simp [List.takeWhile_cons, hc]
  · intro c rest hcs hc
    rw [h, hcs]
    simp [List.takeWhile_cons, hc]
  · intro c hc
    rw [h, List.mem_filter] at hc
    have := List.mem_takeWhile_imp hc.1
    simp at this
    exact ⟨this, by simpa using hc.2⟩

theorem isLastPosition_nil (key : commit → GoString) (k : GoString) (p : Nat) :
    ¬ IsLastPosition key [] k p := by
  rintro ⟨⟨c, hc, _⟩, _⟩
  simp at hc

theorem isLastPosition_append (key : commit → GoString) (l : List commit) (c : commit)
    (k : GoString) (p : Nat) :
    IsLastPosition key (l ++ [c]) k p ↔
      (key c = k ∧ p = l.length) ∨ (key c ≠ k ∧ IsLastPosition key l k p) := by
  constructor
  · rintro ⟨⟨x, hx, hk⟩, hlast⟩
    by_cases hc : key c = k
    · left
      refine ⟨hc, ?_⟩
      by_contra hp
      have hlt : p < l.length := by
        have : p < (l ++ [c]).length := by
          rcases Nat.lt_or_ge p (l ++ [c]).length with h | h
          · exact h
          · rw [List.getElem?_eq_none h] at hx; cases hx
        simp at this; omega
      exact hlast l.length c hlt (by simp) hc
    · right
      refine ⟨hc, ?_⟩
      have hlt : p < l.length := by
        rcases Nat.lt_or_ge p l.length with h | h
        · exact h
        · exfalso
          have : p < (l ++ [c]).length := by
            rcases Nat.lt_or_ge p (l ++ [c]).length with h | h
            · exact h
            · rw [List.getElem?_eq_none h] at hx; cases hx
          simp at this
          have hp : p = l.length := by omega
          subst hp
          simp at hx
          subst hx
          exact hc hk
      refine ⟨⟨x, ?_, hk⟩, ?_⟩
      · rw [List.getElem?_append_left hlt] at hx; exact hx
      · intro j y hj hy
        have hjl : j < l.length := by
          rcases Nat.lt_or_ge j l.length with h | h
          · exact h
          · rw [List.getElem?_eq_none h] at hy; cases hy
        exact hlast j y hj (by rw [List.getElem?_append_left hjl]; exact hy)
  · rintro (⟨hc, hp⟩ | ⟨hc, ⟨⟨x, hx, hk⟩, hlast⟩⟩)
    · subst hp
      refine ⟨⟨c, by simp, hc⟩, ?_⟩
      intro j y hj hy
      have : j < (l ++ [c]).length := by
        rcases Nat.lt_or_ge j (l ++ [c]).length with h | h
        · exact h
        · rw [List.getElem?_eq_none h] at hy; cases hy
      simp at this; omega
    · have hlt : p < l.length := by
        rcases Nat.lt_or_ge p l.length with h | h
        · exact h
        · rw [List.getElem?_eq_none h] at hx; cases hx
      refine ⟨⟨x, by rw [List.getElem?_append_left hlt]; exact hx, hk⟩, ?_⟩
      intro j y hj hy
      rcases Nat.lt_or_ge j l.length with h | h
      · rw [List.getElem?_append_left h] at hy; exact hlast j y hj hy
      · have : j < (l ++ [c]).length := by
          rcases Nat.lt_or_ge j (l ++ [c]).length with h | h
          · exact h
          · rw [List.getElem?_eq_none h] at hy; cases hy
        simp at this
        have hj' : j = l.length := by omega
        subst hj'
        simp at hy
        subst hy
        exact hc

theorem build_shas_iff (sha1 : GoString → GoString) (l : List commit) (k : GoString) (p : Nat) :
    (commits.build sha1 l).shas k = some p ↔ IsLastPosition commit.sha l k p := by
  induction l using List.reverseRecOn generalizing p with
  | nil =>
    simp [commits.build, commits.zero, GoMap.empty, isLastPosition_nil]
  | append_singleton l c ih =>
    rw [build_append, isLastPosition_append]
    simp only [commits.insert, GoMap.set, build_commits, List.length_append, List.length_singleton,
      Nat.add_sub_cancel]
    by_cases h : k = c.sha
    · subst h
      simp [eq_comm]
    · have h' : c.sha ≠ k := fun e => h e.symm
      simp [h, h', ih]

theorem build_messageIDs_iff (sha1 : GoString → GoString) (l : List commit) (k : GoString)
    (p : Nat) :
    (commits.build sha1 l).messageIDs k = some p
      ↔ IsLastPosition (commit.MessageID sha1) l k p := by
  induction l using List.reverseRecOn generalizing p with
  | nil =>
    simp [commits.build, commits.zero, GoMap.empty, isLastPosition_nil]
  | append_singleton l c ih =>
    rw [build_append, isLastPosition_append]
    simp only [commits.insert, GoMap.set, build_commits, List.length_append, List.length_singleton,
      Nat.add_sub_cancel]
    by_cases h : k = c.MessageID sha1
    · subst h
      simp [eq_comm]
    · have h' : c.MessageID sha1 ≠ k := fun e => h e.symm
      simp [h, h', ih]

theorem isLastPosition_exists (key : commit → GoString) (l : List commit) (k : GoString) :
    (∃ p, IsLastPosition key l k p) ↔ ∃ c ∈ l, key c = k := by
  induction l using List.reverseRecOn with
  | nil => simp [isLastPosition_nil]
  | append_singleton l c ih =>
    simp only [isLastPosition_append]
    by_cases hc : key c = k
    · constructor
      · intro _; exact ⟨c, by simp, hc⟩
      · intro _; exact ⟨l.length, Or.inl ⟨hc, rfl⟩⟩
    · constructor
      · rintro ⟨p, (⟨h, _⟩ | ⟨_, h⟩)⟩
        · exact absurd h hc
        · obtain ⟨x, hx, hk⟩ := ih.1 ⟨p, h⟩
          exact ⟨x, by simp [hx], hk⟩
      · rintro ⟨x, hx, hk⟩
        simp at hx
        rcases hx with hx | hx
        · obtain ⟨p, hp⟩ := ih.2 ⟨x, hx, hk⟩
          exact ⟨p, Or.inr ⟨hc, hp⟩⟩
        · subst hx; exact absurd hk hc

/-- C4. For a collection built from the empty one by the inserts of `l`: the
ordered sequence is `l`; the identifier index (the fingerprint index) has a
key exactly when some commit of the sequence has that identifier
(fingerprint), and maps it to the position of the last commit carrying it;
every index value is a position of the sequence; and right after `insert(c)`
the commit `c` sits at the last position and both lookups for `c` give that
position. -/
theorem index_last_write_wins (sha1 : GoString → GoString) (l : List commit) :
    (commits.build sha1 l).commits = l
    ∧ (∀ k, ((commits.build sha1 l).shas k).isSome = true ↔ ∃ c ∈ l, c.sha = k)
    ∧ (∀ k, ((commits.build sha1 l).messageIDs k).isSome = true
        ↔ ∃ c ∈ l, c.MessageID sha1 = k)
    ∧ (∀ k p, (commits.build sha1 l).shas k = some p ↔ IsLastPosition commit.sha l k p)
    ∧ (∀ k p, (commits.build sha1 l).messageIDs k = some p
        ↔ IsLastPosition (commit.MessageID sha1) l k p)
    ∧ (∀ k p, (commits.build sha1 l).shas k = some p → p < l.length)
    ∧ (∀ k p, (commits.build sha1 l).messageIDs k = some p → p < l.length)
    ∧ (∀ c, ((commits.build sha1 l).insert sha1 c).commits[l.length]? = some c
        ∧ ((commits.build sha1 l).insert sha1 c).commits.length = l.length + 1
        ∧ ((commits.build sha1 l).insert sha1 c).shas c.sha = some l.length
        ∧ ((commits.build sha1 l).insert sha1 c).messageIDs (c.MessageID sha1)
            = some l.length) := by
  have hlt : ∀ (key : commit → GoString) k p, IsLastPosition key l k p → p < l.length := by
    rintro key k p ⟨⟨c, hc, _⟩, _⟩
    rcases Nat.lt_or_ge p l.length with h | h
    · exact h
    · rw [List.getElem?_eq_none h] at hc; cases hc
  refine ⟨build_commits sha1 l, ?_, ?_, build_shas_iff sha1 l, build_messageIDs_iff sha1 l,
    ?_, ?_, ?_⟩
  · intro k
    rw [← isLastPosition_exists, Option.isSome_iff_exists]
    simp only [build_shas_iff]
  · intro k
    rw [← isLastPosition_exists, Option.isSome_iff_exists]
    simp only [build_messageIDs_iff]
  · intro k p h
    exact hlt _ k p ((build_shas_iff sha1 l k p).1 h)
  · intro k p h
    exact hlt _ k p ((build_messageIDs_iff sha1 l k p).1 h)
  · intro c
    simp [commits.insert, GoMap.set, build_commits]

/-- C5, as amended. For every digest function: commits with the same title and
the same body have the same `MessageID`, and so do commits whose byte strings
title-followed-by-body are the same. When the digest is collision-free on a
set of byte strings that holds both of these strings (no digest of fixed
length is collision-free on all byte strings), two `MessageID`s are equal
exactly when the byte strings title-followed-by-body are equal. -/
theorem messageID_eq_iff (sha1 : GoString → GoString) (c1 c2 : commit) :
    (c1.title = c2.title → c1.body = c2.body → c1.MessageID sha1 = c2.MessageID sha1)
    ∧ (c1.title ++ c1.body = c2.title ++ c2.body → c1.MessageID sha1 = c2.MessageID sha1)
    ∧ (∀ S : Set GoString, Set.InjOn sha1 S →
        c1.title ++ c1.body ∈ S → c2.title ++ c2.body ∈ S →
        (c1.MessageID sha1 = c2.MessageID sha1
          ↔ c1.title ++ c1.body = c2.title ++ c2.body)) := by
  refine ⟨?_, ?_, ?_⟩
  · intro ht hb
    simp [commit.MessageID, ht, hb]
  · intro h
    simp [commit.MessageID, h]
  · intro S hS h1 h2
    simp only [commit.MessageID]
    exact ⟨fun h => hS h1 h2 h, fun h => by rw [h]⟩

/-- C5, the amended statement at a digest of twenty bytes (`exDigest`, which
is collision-free on the strings of at most twenty bytes and on no larger
set of that kind) and the commits (`ab`, empty) and (`a`, `b`): they have the
same `MessageID`, their strings title-followed-by-body being the same. -/
theorem messageID_witness :
    (exCommitAB.MessageID exDigest = exCommitA.MessageID exDigest
        ↔ exCommitAB.title ++ exCommitAB.body = exCommitA.title ++ exCommitA.body)
    ∧ exCommitAB.MessageID exDigest = exCommitA.MessageID exDigest
    ∧ exCommitAB.title ≠ exCommitA.title ∧ exCommitAB.body ≠ exCommitA.body :=
  ⟨(messageID_eq_iff exDigest exCommitAB exCommitA).2.2 { x | x.length ≤ 20 }
      (fun x hx y hy h => by
        simp only [exDigest] at h
        rwa [List.take_of_length_le hx, List.take_of_length_le hy] at h)
      (by decide) (by decide),
    (messageID_eq_iff exDigest exCommitAB exCommitA).2.1 (by decide),
    by decide, by decide⟩

/-- C5 fails as stated: a collision-free digest does not make `MessageID`
different for all commits that differ in title or body. The commits
(`ab`, empty) and (`a`, `b`) differ in both and hash the same bytes. -/
theorem messageID_not_pair_injective :
    ¬ (∀ (sha1 : GoString → GoString), Function.Injective sha1 → ∀ c1 c2 : commit,
        (c1.title ≠ c2.title ∨ c1.body ≠ c2.body) →
        c1.MessageID sha1 ≠ c2.MessageID sha1) := by
  intro h
  exact h id Function.injective_id exCommitAB exCommitA (Or.inl (by decide)) (by decide)

/-! ## The history loader -/

theorem scanRefNames_eq (t : GoString) (ds : List GoString) :
    scanRefNames t ds = lastReleaseTag t ds := by
  induction ds using List.reverseRecOn with
  | nil => simp [scanRefNames, lastReleaseTag]
  | append_singleton ds d ih =>
    have hstep : scanRefNames t (ds ++ [d])
        = if hasPrefix d (str "tag: ") = true then
            (if versionRegexp.matchString (trimPrefix d (str "tag: ")) = true
              then trimPrefix d (str "tag: ") else scanRefNames t ds)
          else scanRefNames t ds := by
      simp [scanRefNames, List.foldl_append]
    rw [hstep, ih]
    have hlen : (str "tag: ").length = 5 := by decide
    unfold lastReleaseTag
    rw [List.filterMap_append]
    by_cases hp : hasPrefix d (str "tag: ") = true
    · have htrim : trimPrefix d (str "tag: ") = d.drop 5 := by simp [trimPrefix, hp, hlen]
      by_cases hm : versionRegexp.matchString (d.drop 5) = true
      · simp [hp, hm, htrim, releaseTag]
      · simp [hp, hm, htrim, releaseTag]
    · simp [hp, releaseTag]

theorem lastReleaseTag_append (t : GoString) (a b : List GoString) :
    lastReleaseTag (lastReleaseTag t a) b = lastReleaseTag t (a ++ b) := by
  unfold lastReleaseTag
  rw [List.filterMap_append]
  rcases List.eq_nil_or_concat (b.filterMap releaseTag) with h | ⟨l, x, h⟩
  · simp [h]
  · simp [h, List.getLast?_append]

theorem parseLine_ok (env : Env) (t : GoString) (text : GoString) (t1 : GoString) (c : commit)
    (h : parseLine env t text = .ok (t1, c)) :
    c.body = [] ∧ subject text = some c.title ∧ c.oldestTag = t1
      ∧ t1 = lastReleaseTag t (decorations text) := by
  unfold parseLine at h
  simp only [bind, Except.bind, index, pure, Except.pure] at h
  cases h1 : (split text [0])[1]? <;> cases h5 : (split text [0])[5]? <;>
    simp only [h1, h5] at h <;> repeat' split at h
  all_goals cases h
  all_goals simp [subject, decorations, h1, h5, scanRefNames_eq]

theorem loadLoop_ok (env : Env) (lines : List GoString) :
    ∀ (t : GoString) (cs0 cs : Backboard.commits), loadLoop env lines t cs0 = .ok cs →
      ∃ new : List commit, cs = new.foldl (commits.insert env.sha1) cs0
        ∧ new.length = lines.length
        ∧ ∀ i text c, lines[i]? = some text → new[i]? = some c →
            c.body = [] ∧ subject text = some c.title
              ∧ c.oldestTag = lastReleaseTag t ((lines.take (i + 1)).flatMap decorations) := by
  induction lines with
  | nil =>
    intro t cs0 cs h
    simp only [loadLoop, Except.ok.injEq] at h
    exact ⟨[], by simp [h], rfl, by simp⟩
  | cons text rest ih =>
    intro t cs0 cs h
    unfold loadLoop at h
    split at h
    · cases h
    · rename_i t1 c hp
      obtain ⟨hb, hs, htag, ht1⟩ := parseLine_ok env t text t1 c hp
      obtain ⟨new, hcs, hlen, hall⟩ := ih t1 _ cs h
      refine ⟨c :: new, by simp [hcs], by simp [hlen], ?_⟩
      intro i x y hx hy
      cases i with
      | zero =>
        simp at hx hy
        subst hx hy
        refine ⟨hb, hs, ?_⟩
        simp [htag, ht1]
      | succ i =>
        simp at hx hy
        obtain ⟨hb2, hs2, ht2⟩ := hall i x y hx hy
        refine ⟨hb2, hs2, ?_⟩
        rw [ht2, ht1, lastReleaseTag_append]
        simp [List.take_succ_cons]

/-! ## The failure policy of `syncRepo` -/

theorem bind_run {σ α β : Type} (m : M σ α) (f : α → M σ β) (s : σ) :
    (m >>= f) s = match m s with
      | (.ok a, s1) => f a s1
      | (.error e, s1) => (.error e, s1) := rfl

theorem pure_run {σ α : Type} (a : α) (s : σ) : (pure a : M σ α) s = (.ok a, s) := rfl

theorem onDB_heap {α : Type} (m : M DB α) (s : State) : (M.onDB m s).2.heap = s.heap := by
  unfold M.onDB
  split
  rfl

theorem getRepo_state (a : Addr) (s : State) : (getRepo a s).2 = s := by
  unfold getRepo
  split <;> rfl

theorem syncPR_run (env : Env) (repo : Addr) (p : PullRequest) (s : State) :
    syncPR env repo p s = match getRepo repo s with
      | (.ok re, s1) =>
        (match loadCommits env re (prConstraints p) with
        | .error (.error msg) =>
          if contains msg (str "exit status 128") then (.ok (), s1) else (.error (.error msg), s1)
        | .error .panic => (.error .panic, s1)
        | .ok cs => M.onDB (executeTx (syncPRBody env.sha1 re.id cs p)) s1)
      | (.error e, s1) => (.error e, s1) := by
  unfold syncPR
  rw [bind_run]
  rcases getRepo repo s with ⟨r, s1⟩
  cases r with
  | error e => rfl
  | ok re =>
    simp only
    rcases loadCommits env re (prConstraints p) with (msg | _) | cs
    · simp only
      split <;> rfl
    · rfl
    · rfl

theorem syncPR_heap (env : Env) (repo : Addr) (p : PullRequest) (s : State) :
    (syncPR env repo p s).2.heap = s.heap := by
  rw [syncPR_run]
  have hs := getRepo_state repo s
  rcases hg : getRepo repo s with ⟨r, s1⟩
  rw [hg] at hs
  simp only at hs
  subst hs
  cases r with
  | error e => rfl
  | ok re =>
    simp only
    rcases loadCommits env re (prConstraints p) with (msg | _) | cs
    · simp only
      split <;> rfl
    · rfl
    · exact onDB_heap _ _

theorem syncPRs_cons (env : Env) (repo : Addr) (p : PullRequest) (rest : List PullRequest)
    (s : State) :
    syncPRs env repo (p :: rest) s = match syncPR env repo p s with
      | (.ok _, s1) => syncPRs env repo rest s1
      | (.error (.error msg), s1) =>
        if p.MergedAt = none ∧ p.State = str "closed" then syncPRs env repo rest s1
        else (.error (.error msg), s1)
      | (.error .panic, s1) => (.error .panic, s1) := rfl

theorem syncPRs_heap (env : Env) (repo : Addr) (l : List PullRequest) :
    ∀ s : State, (syncPRs env repo l s).2.heap = s.heap := by
  induction l with
  | nil => intro s; rfl
  | cons p rest ih =>
    intro s
    rw [syncPRs_cons]
    have hp := syncPR_heap env repo p s
    rcases hsp : syncPR env repo p s with ⟨(msg | _) | _, s1⟩
    · rw [hsp] at hp
      simp only at hp ⊢
      split
      · rw [ih]; exact hp
      · exact hp
    · rw [hsp] at hp; exact hp
    · rw [hsp] at hp
      simp only at hp ⊢
      rw [ih]; exact hp

theorem syncPRs_append (env : Env) (repo : Addr) (done l : List PullRequest) :
    ∀ s0 s : State, syncPRs env repo done s0 = (.ok (), s) →
      syncPRs env repo (done ++ l) s0 = syncPRs env repo l s := by
  induction done with
  | nil =>
    intro s0 s h
    simp only [syncPRs, pure_run, Prod.mk.injEq, true_and] at h
    subst h
    rfl
  | cons p rest ih =>
    intro s0 s h
    rw [List.cons_append, syncPRs_cons]
    rw [syncPRs_cons] at h
    rcases hsp : syncPR env repo p s0 with ⟨(msg | _) | _, s1⟩
    · rw [hsp] at h
      simp only at h ⊢
      by_cases hc : p.MergedAt = none ∧ p.State = str "closed"
      · rw [if_pos hc] at h ⊢; exact ih s1 s h
      · rw [if_neg hc] at h; cases h
    · rw [hsp] at h; cases h
    · rw [hsp] at h
      simp only at h ⊢
      exact ih s1 s h

theorem syncFrom_run (env : Env) (repo : Addr) (todo : List PullRequest) (s : State) :
    syncFrom env repo todo s = match syncPRs env repo todo s with
      | (.ok _, s1) => refreshAndPublish env repo s1
      | (.error e, s1) => (.error e, s1) := by
  unfold syncFrom
  rw [bind_run]
  rcases syncPRs env repo todo s with ⟨r, s1⟩
  cases r <;> rfl

theorem syncRepoTail_run (env : Env) (repo : Addr) (allPRs : List PullRequest) (s : State) :
    syncRepoTail env repo allPRs s = match syncPRs env repo allPRs.reverse s with
      | (.ok _, s1) => refreshAndPublish env repo s1
      | (.error e, s1) => (.error e, s1) :=
  syncFrom_run env repo allPRs.reverse s

theorem syncRepo_run (env : Env) (fuel : Nat) (repo : Addr) (s : State) (re : Backboard.repo)
    (allPRs : List PullRequest) (db1 : DB)
    (hre : s.heap[repo]? = some (.repo re))
    (hspawn : env.spawn [str "git", str "-C", re.path env, str "fetch", str "--tags"] = none)
    (hlist : listAll env re.githubOwner re.githubRepo fuel 0 [] s.db = some (.ok allPRs, db1)) :
    syncRepo env fuel repo s = some (syncRepoTail env repo allPRs { s with db := db1 }) := by
  unfold syncRepo getRepo
  simp only [hre, hspawn, hlist]

/-- C7, as amended. In a run of `syncRepo` that has fetched `allPRs` and has
processed the requests `done` without returning, for the next request `p`:
a history load that fails with a message containing `exit status 128` makes
`syncPR` return nil with the state untouched, whatever the state of `p`, and
`syncRepo` goes on with the requests left; an error that `syncPR` does return
is passed over in the same way when `p` is closed and unmerged; and when `p`
is open or merged that error is what `syncRepo` returns, with the heap as it
was before the call (no copy, no refresh, nothing published). -/
theorem syncRepo_failure_policy (env : Env) (fuel : Nat) (repo : Addr) (s : State)
    (re : Backboard.repo) (allPRs done rest : List PullRequest) (p : PullRequest) (db1 : DB)
    (s1 : State)
    (hre : s.heap[repo]? = some (.repo re))
    (hspawn : env.spawn [str "git", str "-C", re.path env, str "fetch", str "--tags"] = none)
    (hlist : listAll env re.githubOwner re.githubRepo fuel 0 [] s.db = some (.ok allPRs, db1))
    (horder : allPRs.reverse = done ++ p :: rest)
    (hdone : syncPRs env repo done { s with db := db1 } = (.ok (), s1)) :
    (∀ msg, loadCommits env re (prConstraints p) = .error (.error msg) →
        contains msg (str "exit status 128") = true →
        syncPR env repo p s1 = (.ok (), s1)
          ∧ syncRepo env fuel repo s = some (syncFrom env repo rest s1))
    ∧ (∀ msg s2, syncPR env repo p s1 = (.error (.error msg), s2) →
        (p.MergedAt = none ∧ p.State = str "closed") →
        syncRepo env fuel repo s = some (syncFrom env repo rest s2))
    ∧ (∀ msg s2, syncPR env repo p s1 = (.error (.error msg), s2) →
        ¬ (p.MergedAt = none ∧ p.State = str "closed") →
        syncRepo env fuel repo s = some (.error (.error msg), s2) ∧ s2.heap = s.heap) := by
  have hheap1 : s1.heap = s.heap := by
    have := syncPRs_heap env repo done { s with db := db1 }
    rw [hdone] at this
    exact this
  have hskip : ∀ msg, loadCommits env re (prConstraints p) = .error (.error msg) →
      contains msg (str "exit status 128") = true → syncPR env repo p s1 = (.ok (), s1) := by
    intro msg hload hmsg
    rw [syncPR_run]
    unfold getRepo
    rw [hheap1, hre]
    simp only [hload, hmsg, if_true]
  refine ⟨?_, ?_, ?_⟩
  · intro msg hload hmsg
    refine ⟨hskip msg hload hmsg, ?_⟩
    rw [syncRepo_run env fuel repo s re allPRs db1 hre hspawn hlist, syncRepoTail_run, horder,
      syncPRs_append env repo done (p :: rest) _ s1 hdone, syncPRs_cons, hskip msg hload hmsg,
      syncFrom_run]
  · intro msg s2 hp hclosed
    rw [syncRepo_run env fuel repo s re allPRs db1 hre hspawn hlist, syncRepoTail_run, horder,
      syncPRs_append env repo done (p :: rest) _ s1 hdone, syncPRs_cons, hp, syncFrom_run]
    simp only [hclosed, and_self, if_true]
  · intro msg s2 hp hopen
    have hheap2 : s2.heap = s1.heap := by
      have := syncPR_heap env repo p s1
      rw [hp] at this
      exact this
    refine ⟨?_, by rw [hheap2, hheap1]⟩
    rw [syncRepo_run env fuel repo s re allPRs db1 hre hspawn hlist, syncRepoTail_run, horder,
      syncPRs_append env repo done (p :: rest) _ s1 hdone, syncPRs_cons, hp]
    simp only [hopen, if_false]

/-! ## The refresh on a private copy: what it writes and where -/

theorem Spec.bind {α β : Type} {P : State → Prop} {m : M State α} {Q : α → State → Prop}
    {R : State → Prop} {f : α → M State β} {Q2 : β → State → Prop}
    (hm : Spec P m Q R) (hf : ∀ a, Spec (Q a) (f a) Q2 R) : Spec P (m >>= f) Q2 R := by
  intro s hs
  have h1 := hm s hs
  rw [bind_run]
  rcases hms : m s with ⟨r, s1⟩
  rw [hms] at h1
  cases r with
  | error e => exact h1
  | ok a => exact hf a s1 h1

theorem Spec.pure {α : Type} {P : State → Prop} {Q : α → State → Prop} {R : State → Prop}
    (a : α) (h : ∀ s, P s → Q a s) : Spec P (pure a : M State α) Q R := by
  intro s hs
  exact h s hs

theorem Spec.fail {α : Type} {P : State → Prop} {Q : α → State → Prop} {R : State → Prop}
    (f : Fault) (h : ∀ s, P s → R s) : Spec P (M.fail f : M State α) Q R := by
  intro s hs
  exact h s hs

theorem Spec.pre {α : Type} {P P2 : State → Prop} {m : M State α} {Q : α → State → Prop}
    {R : State → Prop} (hm : Spec P m Q R) (h : ∀ s, P2 s → P s) : Spec P2 m Q R :=
  fun s hs => hm s (h s hs)

theorem Inv.old {env : Env} {h0 : Heap} {re : repo} {c : Nat} {k : Nat} {s : State}
    (h : Inv env h0 re c k s) : Old h0 s.heap := h.1

/-- A write to the heap above the old part, away from the copy, keeps the invariant. -/
theorem Inv.set {env : Env} {h0 : Heap} {re : repo} {c : Nat} {k : Nat} {s : State}
    (h : Inv env h0 re c k s) (a : Nat) (o : Obj) (hca : c < a)
    (ho : ∀ f, o = .prMapMap f → ∀ key (b : Nat), f key = some b → c < b) :
    Inv env h0 re c k { s with heap := s.heap.set a o } := by
  obtain ⟨hold, hc, rv, hrv, hst, hin⟩ := h
  refine ⟨?_, hc, rv, ?_, hst, ?_⟩
  · intro x hx
    have : a ≠ x := by omega
    simp [List.getElem?_set_ne this, hold x hx]
  · have : a ≠ c := by omega
    simpa [List.getElem?_set_ne this] using hrv
  · intro x f hx hcx hf key b hb
    by_cases hxa : a = x
    · subst hxa
      simp only [List.getElem?_set_self'] at hf
      cases hlt : s.heap[a]? with
      | none => simp [hlt] at hf
      | some y =>
        simp [hlt] at hf
        exact ho f hf key b hb
    · simp only [List.getElem?_set_ne hxa] at hf
      exact hin x f hx hcx hf key b hb

/-- An allocation keeps the invariant, and the new address is above the copy. -/
theorem Inv.alloc {env : Env} {h0 : Heap} {re : repo} {c : Nat} {k : Nat} {s : State}
    (h : Inv env h0 re c k s) (o : Obj)
    (ho : ∀ f, o = .prMapMap f → ∀ key (b : Nat), f key = some b → c < b) :
    Inv env h0 re c k { s with heap := s.heap ++ [o] } ∧ c < s.heap.length := by
  obtain ⟨hold, hc, rv, hrv, hst, hin⟩ := h
  have hclt : c < s.heap.length := by
    rcases Nat.lt_or_ge c s.heap.length with h | h
    · exact h
    · rw [List.getElem?_eq_none h] at hrv; cases hrv
  refine ⟨⟨?_, hc, rv, ?_, hst, ?_⟩, hclt⟩
  · intro x hx
    have : x < s.heap.length := by omega
    simp [List.getElem?_append_left this, hold x hx]
  · simpa [List.getElem?_append_left hclt] using hrv
  · intro x f hx hcx hf key b hb
    rcases Nat.lt_or_ge x s.heap.length with hlt | hge
    · simp only [List.getElem?_append_left hlt] at hf
      exact hin x f hx hcx hf key b hb
    · rw [List.getElem?_append_right hge] at hf
      cases hsub : x - s.heap.length with
      | zero =>
        rw [hsub] at hf
        simp at hf
        exact ho f hf key b hb
      | succ j =>
        rw [hsub] at hf
        simp at hf

theorem Inv.lt {env : Env} {h0 : Heap} {re : repo} {c : Nat} {k : Nat} {s : State}
    (h : Inv env h0 re c k s) : c < s.heap.length := by
  obtain ⟨_, _, rv, hrv, _, _⟩ := h
  rcases Nat.lt_or_ge c s.heap.length with h | h
  · exact h
  · rw [List.getElem?_eq_none h] at hrv; cases hrv

theorem getRepo_spec (env : Env) (h0 : Heap) (re : repo) (c : Nat) (k : Nat) :
    Spec (Inv env h0 re c k) (getRepo c)
      (fun rv s => Inv env h0 re c k s ∧ s.heap[c]? = some (.repo rv) ∧ Stage env re c k rv
        ∧ InnerFresh c rv s.heap)
      (fun s => Old h0 s.heap) := by
  intro s hs
  obtain ⟨hold, hc, rv, hrv, hst, hin⟩ := hs
  have hrun : getRepo c s = (.ok rv, s) := by
    unfold getRepo
    simp only [hrv]
  rw [hrun]
  exact ⟨⟨hold, hc, rv, hrv, hst, hin⟩, hrv, hst, hin⟩

theorem setRepo_spec (env : Env) (h0 : Heap) (re : repo) (c : Nat) (k k2 : Nat)
    (f : repo → repo) (P : State → Prop)
    (hf : ∀ rv, Stage env re c k rv → Stage env re c k2 (f rv))
    (hb : ∀ s rv, P s → s.heap[c]? = some (.repo rv) → (f rv).branchPRs = rv.branchPRs ∨
      ∃ bp : Nat, (f rv).branchPRs = some bp ∧ s.heap[bp]? = some (.prMapMap GoMap.empty)) :
    Spec (fun s => Inv env h0 re c k s ∧ P s) (setRepo c f) (fun _ s => Inv env h0 re c k2 s)
      (fun s => Old h0 s.heap) := by
  intro s hs
  obtain ⟨⟨hold, hc, rv, hrv, hst, hin⟩, hP⟩ := hs
  have hclt : c < s.heap.length := Inv.lt ⟨hold, hc, rv, hrv, hst, hin⟩
  have hrun : setRepo c f s = (.ok (), { s with heap := s.heap.set c (.repo (f rv)) }) := by
    unfold setRepo
    simp only [hrv]
  rw [hrun]
  refine ⟨?_, hc, f rv, ?_, hf rv hst, ?_⟩
  · intro x hx
    have : c ≠ x := by omega
    simp [List.getElem?_set_ne this, hold x hx]
  · simp [List.getElem?_set_self hclt]
  · intro a g ha hca hg key b hb2
    have hne : c ≠ a := by omega
    simp only [List.getElem?_set_ne hne] at hg
    rcases hb s rv hP hrv with hsame | ⟨bp, hbp, hempty⟩
    · rw [hsame] at ha
      exact hin a g ha hca hg key b hb2
    · rw [hbp] at ha
      cases ha
      rw [hempty] at hg
      cases hg
      simp [GoMap.empty] at hb2

theorem newObj_spec (env : Env) (h0 : Heap) (re : repo) (c : Nat) (k : Nat) (o : Obj)
    (ho : ∀ f, o = .prMapMap f → ∀ key (b : Nat), f key = some b → c < b) :
    Spec (Inv env h0 re c k) (newObj o)
      (fun a s => Inv env h0 re c k s ∧ c < a ∧ s.heap[a]? = some o)
      (fun s => Old h0 s.heap) := by
  intro s hs
  unfold newObj
  obtain ⟨h1, h2⟩ := Inv.alloc hs o ho
  exact ⟨h1, h2, by simp⟩

theorem setCommitsMap_spec (env : Env) (h0 : Heap) (re : repo) (c : Nat) (k : Nat)
    (m : Option Addr) (key : GoString) (v : Backboard.commits)
    (hm : ∀ a : Nat, m = some a → c < a) :
    Spec (Inv env h0 re c k) (setCommitsMap m key v) (fun _ s => Inv env h0 re c k s)
      (fun s => Old h0 s.heap) := by
  intro s hs
  unfold setCommitsMap
  cases m with
  | none => exact hs.old
  | some a =>
    simp only
    rcases hget : s.heap[a]? with _ | o
    · exact hs.old
    · cases o
      case commitsMap g => exact Inv.set hs a _ (hm a rfl) (by intro f hf; cases hf)
      all_goals exact hs.old

theorem setShaMap_spec (env : Env) (h0 : Heap) (re : repo) (c : Nat) (k : Nat)
    (m : Option Addr) (key : GoString) (v : sha)
    (hm : ∀ a : Nat, m = some a → c < a) :
    Spec (Inv env h0 re c k) (setShaMap m key v) (fun _ s => Inv env h0 re c k s)
      (fun s => Old h0 s.heap) := by
  intro s hs
  unfold setShaMap
  cases m with
  | none => exact hs.old
  | some a =>
    simp only
    rcases hget : s.heap[a]? with _ | o
    · exact hs.old
    · cases o
      case shaMap g => exact Inv.set hs a _ (hm a rfl) (by intro f hf; cases hf)
      all_goals exact hs.old

theorem setPrMap_spec (env : Env) (h0 : Heap) (re : repo) (c : Nat) (k : Nat)
    (m : Option Addr) (key : GoString) (v : pr)
    (hm : ∀ a : Nat, m = some a → c < a) :
    Spec (Inv env h0 re c k) (setPrMap m key v) (fun _ s => Inv env h0 re c k s)
      (fun s => Old h0 s.heap) := by
  intro s hs
  unfold setPrMap
  cases m with
  | none => exact hs.old
  | some a =>
    simp only
    rcases hget : s.heap[a]? with _ | o
    · exact hs.old
    · cases o
      case prMap g => exact Inv.set hs a _ (hm a rfl) (by intro f hf; cases hf)
      all_goals exact hs.old

theorem onDB_spec {α : Type} (m : M DB α) (P : State → Prop)
    (hP : ∀ s db, P s → P { s with db := db }) (R : State → Prop)
    (hR : ∀ s db, P s → R { s with db := db }) :
    Spec P (M.onDB m) (fun _ s => P s) R := by
  intro s hs
  unfold M.onDB
  rcases m s.db with ⟨r, db1⟩
  cases r with
  | error e => exact hR s db1 hs
  | ok a => exact hP s db1 hs

theorem Inv.db {env : Env} {h0 : Heap} {re : repo} {c : Nat} {k : Nat} {s : State}
    (h : Inv env h0 re c k s) (db : DB) : Inv env h0 re c k { s with db := db } := h

theorem ofResult_spec {α : Type} (r : Result α) (P : State → Prop) (R : State → Prop)
    (hR : ∀ s, P s → R s) :
    Spec P (M.ofResult r) (fun a s => P s ∧ r = .ok a) R := by
  intro s hs
  unfold M.ofResult
  cases r with
  | error e => exact hR s hs
  | ok a => exact ⟨hs, rfl⟩

theorem ofExcept_spec {α : Type} (r : Except GoString α) (P : State → Prop) (R : State → Prop)
    (hR : ∀ s, P s → R s) :
    Spec P (M.ofExcept r) (fun _ s => P s) R := by
  intro s hs
  unfold M.ofExcept
  cases r with
  | error e => exact hR s hs
  | ok a => exact hs

theorem refreshBranches_spec (env : Env) (h0 : Heap) (re : repo) (c : Nat)
    (l : List GoString) :
    Spec (Inv env h0 re c 3) (refreshBranches env c l) (fun _ s => Inv env h0 re c 3 s)
      (fun s => Old h0 s.heap) := by
  induction l with
  | nil => exact Spec.pure () (fun s hs => hs)
  | cons branch rest ih =>
    unfold refreshBranches
    apply Spec.bind (getRepo_spec env h0 re c 3)
    intro rv1
    apply Spec.bind (ofResult_spec _ _ _ (fun s hs => hs.1.old))
    intro cs
    apply Spec.bind (Spec.pre (getRepo_spec env h0 re c 3) (fun s hs => hs.1.1))
    intro rv2
    apply Spec.bind (Q := fun _ s => Inv env h0 re c 3 s)
    · intro s hs
      obtain ⟨hinv, _, hst, _⟩ := hs
      obtain ⟨a, ha, hca⟩ := hst.2.2.2.2.2.1 (by omega)
      exact setCommitsMap_spec env h0 re c 3 _ _ _
        (by intro b hb; rw [ha] at hb; cases hb; exact hca) s hinv
    intro _
    apply Spec.bind (getRepo_spec env h0 re c 3)
    intro rv3
    apply Spec.bind (ofExcept_spec _ _ _ (fun s hs => hs.1.old))
    intro out
    apply Spec.bind (Spec.pre (getRepo_spec env h0 re c 3) (fun s hs => hs.1))
    intro rv4
    apply Spec.bind (Q := fun _ s => Inv env h0 re c 3 s)
    · intro s hs
      obtain ⟨hinv, _, hst, _⟩ := hs
      obtain ⟨a, ha, hca⟩ := hst.2.2.2.2.2.2.1 (by omega)
      exact setShaMap_spec env h0 re c 3 _ _ _
        (by intro b hb; rw [ha] at hb; cases hb; exact hca) s hinv
    intro _
    apply Spec.bind (ofResult_spec _ _ _ (fun s hs => hs.old))
    intro _
    exact Spec.pre ih (fun s hs => hs.1)

theorem fillMasterPRs_spec (env : Env) (h0 : Heap) (re : repo) (c : Nat)
    (l : List (Except GoString MasterPRRow)) :
    Spec (Inv env h0 re c 4) (fillMasterPRs c l) (fun _ s => Inv env h0 re c 4 s)
      (fun s => Old h0 s.heap) := by
  induction l with
  | nil => exact Spec.pure () (fun s hs => hs)
  | cons row rest ih =>
    cases row with
    | error e =>
      unfold fillMasterPRs
      exact Spec.fail _ (fun s hs => hs.old)
    | ok row =>
      unfold fillMasterPRs
      apply Spec.bind (getRepo_spec env h0 re c 4)
      intro rv
      apply Spec.bind (Q := fun _ s => Inv env h0 re c 4 s)
      · intro s hs
        obtain ⟨hinv, _, hst, _⟩ := hs
        obtain ⟨a, ha, hca⟩ := hst.2.2.2.2.2.2.2.1 (by omega)
        exact setPrMap_spec env h0 re c 4 _ _ _
          (by intro b hb; rw [ha] at hb; cases hb; exact hca) s hinv
      intro _
      exact ih

theorem getPrMapMap_spec (env : Env) (h0 : Heap) (re : repo) (c : Nat) (k : Nat) (hk : 5 ≤ k)
    (rv : repo) (key : GoString) :
    Spec (fun s => Inv env h0 re c k s ∧ s.heap[c]? = some (.repo rv) ∧ Stage env re c k rv
        ∧ InnerFresh c rv s.heap)
      (getPrMapMap rv.branchPRs key)
      (fun inner s => Inv env h0 re c k s ∧ ∀ b : Nat, inner = some b → c < b)
      (fun s => Old h0 s.heap) := by
  intro s hs
  obtain ⟨hinv, _, hst, hin⟩ := hs
  obtain ⟨a, ha, hca⟩ := hst.2.2.2.2.2.2.2.2.1 hk
  unfold getPrMapMap
  rw [ha]
  simp only
  rcases hget : s.heap[a]? with _ | o
  · exact hinv.old
  · cases o
    case prMapMap f =>
      refine ⟨hinv, ?_⟩
      intro b hb
      exact hin a f ha hca hget key b hb
    all_goals exact hinv.old

theorem setPrMapMap_spec (env : Env) (h0 : Heap) (re : repo) (c : Nat) (k : Nat) (hk : 5 ≤ k)
    (rv : repo) (key : GoString) (v : Nat) :
    Spec (fun s => (Inv env h0 re c k s ∧ c < v) ∧ s.heap[c]? = some (.repo rv)
        ∧ Stage env re c k rv ∧ InnerFresh c rv s.heap)
      (setPrMapMap rv.branchPRs key v)
      (fun _ s => Inv env h0 re c k s)
      (fun s => Old h0 s.heap) := by
  intro s hs
  obtain ⟨⟨hinv, hv⟩, _, hst, hin⟩ := hs
  obtain ⟨a, ha, hca⟩ := hst.2.2.2.2.2.2.2.2.1 hk
  unfold setPrMapMap
  rw [ha]
  simp only
  rcases hget : s.heap[a]? with _ | o
  · exact hinv.old
  · cases o
    case prMapMap f =>
      apply Inv.set hinv a _ hca
      intro g hg key2 b hb
      cases hg
      unfold GoMap.set at hb
      split at hb
      · cases hb; exact hv
      · exact hin a f ha hca hget key2 b hb
    all_goals exact hinv.old

theorem ensureInner_spec (env : Env) (h0 : Heap) (re : repo) (c : Nat) (key : GoString) :
    Spec (Inv env h0 re c 5) (ensureInner c key) (fun _ s => Inv env h0 re c 5 s)
      (fun s => Old h0 s.heap) := by
  unfold ensureInner
  apply Spec.bind (getRepo_spec env h0 re c 5)
  intro rv
  apply Spec.bind (getPrMapMap_spec env h0 re c 5 (by omega) rv key)
  intro inner
  cases inner with
  | some a => exact Spec.pure () (fun s hs => hs.1)
  | none =>
    simp only
    apply Spec.bind (Spec.pre (newObj_spec env h0 re c 5 _ (by intro f hf; cases hf))
      (fun s hs => hs.1))
    intro a
    apply Spec.bind (Q := fun rv2 s => (Inv env h0 re c 5 s ∧ c < a) ∧
      s.heap[c]? = some (.repo rv2) ∧ Stage env re c 5 rv2 ∧ InnerFresh c rv2 s.heap)
    · intro s hs
      have h1 := getRepo_spec env h0 re c 5 s hs.1
      rcases hg : getRepo c s with ⟨r, s1⟩
      rw [hg] at h1
      have hs1 : s1 = s := by
        have : (getRepo c s).2 = s := by unfold getRepo; split <;> rfl
        rw [hg] at this
        exact this
      subst hs1
      cases r with
      | error e => exact h1
      | ok rv2 => exact ⟨⟨h1.1, hs.2.1⟩, h1.2⟩
    intro rv2
    exact setPrMapMap_spec env h0 re c 5 (by omega) rv2 key a

theorem fillBranchPRs_spec (env : Env) (h0 : Heap) (re : repo) (c : Nat)
    (l : List (Except GoString BranchPRRow)) :
    Spec (Inv env h0 re c 5) (fillBranchPRs c l) (fun _ s => Inv env h0 re c 5 s)
      (fun s => Old h0 s.heap) := by
  induction l with
  | nil => exact Spec.pure () (fun s hs => hs)
  | cons row rest ih =>
    cases row with
    | error e =>
      unfold fillBranchPRs
      exact Spec.fail _ (fun s hs => hs.old)
    | ok row =>
      unfold fillBranchPRs
      simp only
      apply Spec.bind (ensureInner_spec env h0 re c row.message_id)
      intro _
      apply Spec.bind (getRepo_spec env h0 re c 5)
      intro rv
      apply Spec.bind (getPrMapMap_spec env h0 re c 5 (by omega) rv row.message_id)
      intro inner
      apply Spec.bind (Q := fun _ s => Inv env h0 re c 5 s)
      · intro s hs
        exact setPrMap_spec env h0 re c 5 _ _ _ hs.2 s hs.1
      intro _
      exact ih

theorem rowsErr_spec {α : Type} (rows : Rows α) (P : State → Prop) (R : State → Prop)
    (hR : ∀ s, P s → R s) : Spec P (rowsErr rows) (fun _ s => P s) R := by
  intro s hs
  unfold rowsErr
  cases rows.err with
  | none => exact hs
  | some e => exact hR s hs

theorem Spec.assume {α : Type} {P : State → Prop} {φ : Prop} {m : M State α}
    {Q : α → State → Prop} {R : State → Prop} (h : φ → Spec P m Q R) :
    Spec (fun s => P s ∧ φ) m Q R :=
  fun s hs => h hs.2 s hs.1

theorem loadCommits_congr (env : Env) (rv re : repo) (l : List GoString)
    (h : rv.githubRepo = re.githubRepo) : loadCommits env rv l = loadCommits env re l := by
  simp only [loadCommits, gitLogArgs, repo.path, h]

theorem refresh_spec (env : Env) (h0 : Heap) (re : repo) (c : Nat) :
    Spec (Inv env h0 re c 0) (repo.refresh env c) (fun _ s => Inv env h0 re c 6 s)
      (fun s => Old h0 s.heap) := by
  unfold repo.refresh
  apply Spec.bind (getRepo_spec env h0 re c 0)
  intro rv0
  apply Spec.bind (ofResult_spec _ _ _ (fun s hs => hs.1.old))
  intro cs
  apply Spec.bind (Q := fun _ s => Inv env h0 re c 1 s)
  · intro s hs
    obtain ⟨⟨hinv, _, hst, _⟩, hcs⟩ := hs
    rw [loadCommits_congr env rv0 re _ hst.2.2.1] at hcs
    refine setRepo_spec env h0 re c 0 1 _ (fun _ => True) ?_ ?_ s ⟨hinv, trivial⟩
    · intro rv h
      obtain ⟨h1, h2, h3, h4, -⟩ := h
      exact ⟨h1, h2, h3, h4, fun _ => hcs, by omega, by omega, by omega, by omega, by omega⟩
    · intro s rv _ _
      exact Or.inl rfl
  intro _
  apply Spec.bind (newObj_spec env h0 re c 1 _ (by intro f hf; cases hf))
  intro bc
  apply Spec.bind (Q := fun _ s => Inv env h0 re c 2 s)
  · intro s hs
    refine setRepo_spec env h0 re c 1 2 _ (fun _ => True) ?_ ?_ s ⟨hs.1, trivial⟩
    · intro rv h
      obtain ⟨h1, h2, h3, h4, h5, -⟩ := h
      exact ⟨h1, h2, h3, h4, (fun _ => h5 (by omega)), fun _ => ⟨bc, rfl, hs.2.1⟩, by omega,
        by omega, by omega, by omega⟩
    · intro s rv _ _
      exact Or.inl rfl
  intro _
  apply Spec.bind (newObj_spec env h0 re c 2 _ (by intro f hf; cases hf))
  intro mb
  apply Spec.bind (Q := fun _ s => Inv env h0 re c 3 s)
  · intro s hs
    refine setRepo_spec env h0 re c 2 3 _ (fun _ => True) ?_ ?_ s ⟨hs.1, trivial⟩
    · intro rv h
      obtain ⟨h1, h2, h3, h4, h5, h6, -⟩ := h
      exact ⟨h1, h2, h3, h4, (fun _ => h5 (by omega)), (fun _ => h6 (by omega)),
        fun _ => ⟨mb, rfl, hs.2.1⟩, by omega, by omega, by omega⟩
    · intro s rv _ _
      exact Or.inl rfl
  intro _
  apply Spec.bind (getRepo_spec env h0 re c 3)
  intro rv3
  apply Spec.bind (Spec.pre (refreshBranches_spec env h0 re c _) (fun s hs => hs.1))
  intro _
  apply Spec.bind (newObj_spec env h0 re c 3 _ (by intro f hf; cases hf))
  intro mp
  apply Spec.bind (Q := fun _ s => Inv env h0 re c 4 s)
  · intro s hs
    refine setRepo_spec env h0 re c 3 4 _ (fun _ => True) ?_ ?_ s ⟨hs.1, trivial⟩
    · intro rv h
      obtain ⟨h1, h2, h3, h4, h5, h6, h7, -⟩ := h
      exact ⟨h1, h2, h3, h4, (fun _ => h5 (by omega)), (fun _ => h6 (by omega)),
        (fun _ => h7 (by omega)), fun _ => ⟨mp, rfl, hs.2.1⟩, by omega, by omega⟩
    · intro s rv _ _
      exact Or.inl rfl
  intro _
  apply Spec.bind (onDB_spec _ (Inv env h0 re c 4) (fun s db hs => Inv.db hs db)
    (fun s => Old h0 s.heap) (fun s db hs => hs.old))
  intro rows
  apply Spec.bind (fillMasterPRs_spec env h0 re c _)
  intro _
  apply Spec.bind (rowsErr_spec _ _ _ (fun s hs => hs.old))
  intro _
  apply Spec.bind (newObj_spec env h0 re c 4 _
    (by intro f hf; cases hf; intro key b hb; simp [GoMap.empty] at hb))
  intro bp
  apply Spec.bind (Q := fun _ s => Inv env h0 re c 5 s)
  · intro s hs
    refine setRepo_spec env h0 re c 4 5 _
      (fun s => s.heap[bp]? = some (.prMapMap GoMap.empty)) ?_ ?_ s ⟨hs.1, hs.2.2⟩
    · intro rv h
      obtain ⟨h1, h2, h3, h4, h5, h6, h7, h8, -⟩ := h
      exact ⟨h1, h2, h3, h4, (fun _ => h5 (by omega)), (fun _ => h6 (by omega)),
        (fun _ => h7 (by omega)), (fun _ => h8 (by omega)), fun _ => ⟨bp, rfl, hs.2.1⟩,
        by omega⟩
    · intro s rv hP _
      exact Or.inr ⟨bp, rfl, hP⟩
  intro _
  apply Spec.bind (onDB_spec _ (Inv env h0 re c 5) (fun s db hs => Inv.db hs db)
    (fun s => Old h0 s.heap) (fun s db hs => hs.old))
  intro rows2
  apply Spec.bind (fillBranchPRs_spec env h0 re c _)
  intro _
  apply Spec.bind (rowsErr_spec _ _ _ (fun s hs => hs.old))
  intro _
  intro s hs
  refine setRepo_spec env h0 re c 5 6 _ (fun _ => True) ?_ ?_ s ⟨hs, trivial⟩
  · intro rv h
    obtain ⟨h1, h2, h3, h4, h5, h6, h7, h8, h9, -⟩ := h
    exact ⟨h1, h2, h3, h4, (fun _ => h5 (by omega)), (fun _ => h6 (by omega)),
      (fun _ => h7 (by omega)), (fun _ => h8 (by omega)), (fun _ => h9 (by omega)), fun _ => rfl⟩
  · intro s rv _ _
    exact Or.inl rfl

theorem inv_copy (env : Env) (s : State) (re : repo) :
    Inv env s.heap re s.heap.length 0 { s with heap := s.heap ++ [.repo re] } := by
  refine ⟨?_, Nat.le_refl _, re, by simp, ?_, ?_⟩
  · intro a ha
    simp [List.getElem?_append_left ha]
  · exact ⟨rfl, rfl, rfl, rfl, by omega, by omega, by omega, by omega, by omega, by omega⟩
  · intro a f _ hca hf
    have hge : (s.heap ++ [Obj.repo re]).length ≤ a := by
      simp only [List.length_append, List.length_singleton]; omega
    rw [show ({ s with heap := s.heap ++ [Obj.repo re] } : State).heap = s.heap ++ [Obj.repo re]
      from rfl, List.getElem?_eq_none hge] at hf
    cases hf

theorem refreshAndPublish_spec (env : Env) (repo : Nat) (s : State) :
    match refreshAndPublish env repo s with
    | (.error _, s2) => Old s.heap s2.heap
    | (.ok _, s2) => ∃ (re rv : Backboard.repo) (sr : State),
        s.heap[repo]? = some (.repo re)
        ∧ Backboard.repo.refresh env s.heap.length { s with heap := s.heap ++ [.repo re] }
            = (.ok (), sr)
        ∧ sr.heap[s.heap.length]? = some (.repo rv)
        ∧ s2 = { sr with heap := sr.heap.set repo (.repo rv) }
        ∧ Old s.heap sr.heap
        ∧ Stage env re s.heap.length 6 rv := by
  have hold : Old s.heap s.heap := fun _ _ => rfl
  unfold refreshAndPublish
  simp only [bind_run]
  rcases hre : s.heap[repo]? with _ | o
  · simp only [getRepo, hre]
    exact hold
  · cases o
    case repo re =>
      have hg : getRepo repo s = (.ok re, s) := by simp only [getRepo, hre]
      rw [hg]
      simp only [newObj]
      have hspec := refresh_spec env s.heap re s.heap.length _ (inv_copy env s re)
      rcases hrf : Backboard.repo.refresh env s.heap.length
        { s with heap := s.heap ++ [.repo re] } with ⟨r, sr⟩
      rw [hrf] at hspec
      cases r with
      | error e => exact hspec
      | ok u =>
        simp only at hspec ⊢
        obtain ⟨hold2, _, rv, hrv, hst, _⟩ := hspec
        have hg2 : getRepo s.heap.length sr = (.ok rv, sr) := by simp only [getRepo, hrv]
        rw [hg2]
        have hlt : repo < s.heap.length := by
          rcases Nat.lt_or_ge repo s.heap.length with h | h
          · exact h
          · rw [List.getElem?_eq_none h] at hre; cases hre
        have hpub : sr.heap[repo]? = some (.repo re) := by rw [hold2 repo hlt, hre]
        simp only [setRepo, hpub]
        exact ⟨re, rv, sr, rfl, hrf, hrv, rfl, hold2, hst⟩
    all_goals
      simp only [getRepo, hre]
      exact hold

/-! ## Publication is all or nothing -/

theorem listAll_run (env : Env) (fuel : Nat) (repo : Nat) (s : State) (res : Result Unit)
    (s2 : State) (hrun : syncRepo env fuel repo s = some (res, s2)) :
    (∃ f, res = .error f ∧ s2.heap = s.heap)
    ∨ ∃ (allPRs : List PullRequest) (db1 : DB),
        syncRepoTail env repo allPRs { s with db := db1 } = (res, s2) := by
  unfold syncRepo at hrun
  rcases hre : s.heap[repo]? with _ | o
  · simp only [getRepo, hre, Option.some.injEq, Prod.mk.injEq] at hrun
    exact Or.inl ⟨_, hrun.1.symm, by rw [← hrun.2]⟩
  · cases o
    case repo re =>
      simp only [getRepo, hre] at hrun
      split at hrun
      · simp only [Option.some.injEq, Prod.mk.injEq] at hrun
        exact Or.inl ⟨_, hrun.1.symm, by rw [← hrun.2]⟩
      · split at hrun
        · cases hrun
        · simp only [Option.some.injEq, Prod.mk.injEq] at hrun
          exact Or.inl ⟨_, hrun.1.symm, by rw [← hrun.2]⟩
        · rename_i allPRs db1 _
          simp only [Option.some.injEq] at hrun
          exact Or.inr ⟨allPRs, db1, hrun⟩
    all_goals
      simp only [getRepo, hre, Option.some.injEq, Prod.mk.injEq] at hrun
      exact Or.inl ⟨_, hrun.1.symm, by rw [← hrun.2]⟩

/-- C8. For a run of `syncRepo` that returns: if it returns an error (from the
fetch, the listing, the sync of a request, or any step of `refresh`) every
object that was on the heap before the call, the published struct and the maps
it points to among them, is unchanged. If it returns nil, the published struct
is the struct that one `refresh` pass left in the private copy (allocated at
the first free address): its history is the one loaded in that pass, its four
maps were allocated in that pass (their addresses are beyond the copy), its
refresh time is the clock reading of that pass, its identity fields are the old
ones, and every other object that existed before the call is unchanged. -/
theorem syncRepo_publish_all_or_nothing (env : Env) (fuel : Nat) (repo : Nat) (s s2 : State)
    (res : Result Unit) (hrun : syncRepo env fuel repo s = some (res, s2)) :
    (∀ f, res = .error f → ∀ a : Nat, a < s.heap.length → s2.heap[a]? = s.heap[a]?)
    ∧ (res = .ok () → ∃ (re rv : Backboard.repo) (sp sr : State),
        s.heap[repo]? = some (.repo re)
        ∧ sp.heap = s.heap ++ [.repo re]
        ∧ Backboard.repo.refresh env s.heap.length sp = (.ok (), sr)
        ∧ sr.heap[s.heap.length]? = some (.repo rv)
        ∧ s2.heap = sr.heap.set repo (.repo rv) ∧ s2.db = sr.db
        ∧ s2.heap[repo]? = some (.repo rv)
        ∧ loadCommits env re [str "master"] = .ok rv.masterCommits
        ∧ (∃ a : Nat, rv.branchCommits = some a ∧ s.heap.length < a)
        ∧ (∃ a : Nat, rv.branchMergeBases = some a ∧ s.heap.length < a)
        ∧ (∃ a : Nat, rv.masterPRs = some a ∧ s.heap.length < a)
        ∧ (∃ a : Nat, rv.branchPRs = some a ∧ s.heap.length < a)
        ∧ rv.lastRefresh = env.now
        ∧ rv.id = re.id ∧ rv.githubOwner = re.githubOwner ∧ rv.githubRepo = re.githubRepo
        ∧ rv.releaseBranches = re.releaseBranches
        ∧ ∀ a : Nat, a < s.heap.length → a ≠ repo → s2.heap[a]? = s.heap[a]?) := by
  rcases listAll_run env fuel repo s res s2 hrun with ⟨f, hf, hheap⟩ | ⟨allPRs, db1, htail⟩
  · refine ⟨?_, ?_⟩
    · intro _ _ a _; rw [hheap]
    · intro hok; rw [hok] at hf; cases hf
  · rw [syncRepoTail_run] at htail
    have hh := syncPRs_heap env repo allPRs.reverse { s with db := db1 }
    rcases hsp : syncPRs env repo allPRs.reverse { s with db := db1 } with ⟨r1, s1⟩
    rw [hsp] at htail hh
    simp only at hh
    cases r1 with
    | error e =>
      simp only [Prod.mk.injEq] at htail
      refine ⟨?_, ?_⟩
      · intro _ _ a _; rw [← htail.2, hh]
      · intro hok; rw [hok] at htail; cases htail.1
    | ok u =>
      simp only at htail
      have hspec := refreshAndPublish_spec env repo s1
      rw [htail] at hspec
      cases res with
      | error e =>
        simp only at hspec
        refine ⟨?_, ?_⟩
        · intro _ _ a ha
          have := hspec a (by rw [hh]; exact ha)
          rw [this, hh]
        · intro hok; cases hok
      | ok u2 =>
        simp only at hspec
        obtain ⟨re, rv, sr, hre, hrf, hrv, hs2, hold, hst⟩ := hspec
        refine ⟨?_, ?_⟩
        · intro f hf; cases hf
        · intro _
          rw [hh] at hre hrf hrv hold hst
          have hlt : repo < s.heap.length := by
            rcases Nat.lt_or_ge repo s.heap.length with h | h
            · exact h
            · rw [List.getElem?_eq_none h] at hre; cases hre
          have hlt2 : repo < sr.heap.length := by
            have := hold repo hlt
            rw [hre] at this
            rcases Nat.lt_or_ge repo sr.heap.length with h | h
            · exact h
            · rw [List.getElem?_eq_none h] at this; cases this
          obtain ⟨h1, h2, h3, h4, h5, h6, h7, h8, h9, h10⟩ := hst
          refine ⟨re, rv, { s1 with heap := s.heap ++ [.repo re] }, sr, hre, rfl, ?_, hrv,
            by rw [hs2], by rw [hs2], ?_, h5 (by omega), h6 (by omega), h7 (by omega),
            h8 (by omega), h9 (by omega), h10 (by omega), h1, h2, h3, h4, ?_⟩
          · exact hrf
          · rw [hs2]
            simp [List.getElem?_set_self hlt2]
          · intro a ha hne
            rw [hs2]
            have : repo ≠ a := fun e => hne e.symm
            simp only [List.getElem?_set_ne this]
            exact hold a ha

/-! ## What `loadCommits` returns -/

theorem loadCommits_ok (env : Env) (re : repo) (constraints : List GoString)
    (cs : Backboard.commits) (h : loadCommits env re constraints = .ok cs) :
    ∃ out, env.capture (gitLogArgs env re constraints) = .ok out
      ∧ cs = commits.build env.sha1 cs.commits
      ∧ cs.commits.length = (scanLines out).length
      ∧ ∀ (i : Nat) (text : GoString) (c : commit), (scanLines out)[i]? = some text →
          cs.commits[i]? = some c →
          c.body = [] ∧ subject text = some c.title
            ∧ c.oldestTag
                = lastReleaseTag [] (((scanLines out).take (i + 1)).flatMap decorations) := by
  unfold loadCommits at h
  rcases hcap : env.capture (gitLogArgs env re constraints) with e | out
  · rw [hcap] at h; cases h
  · rw [hcap] at h
    simp only at h
    obtain ⟨new, hcs, hlen, hall⟩ := loadLoop_ok env (scanLines out) [] commits.zero cs h
    have hbuild : cs = commits.build env.sha1 new := hcs
    have hnew : cs.commits = new := by rw [hbuild, build_commits]
    refine ⟨out, rfl, ?_, ?_, ?_⟩
    · rw [hnew]; exact hbuild
    · rw [hnew]; exact hlen
    · rw [hnew]; exact hall

theorem lastReleaseTag_of_none (t : GoString) (ds : List GoString)
    (h : ds.filterMap releaseTag = []) : lastReleaseTag t ds = t := by
  simp [lastReleaseTag, h]

/-- C9. When `loadCommits` returns a collection, it has one commit for each
line the scanner yields, and the `oldestTag` of the `i`-th commit is the last
decoration `tag: T` with `T` matching `versionRegexp` among the decorations of
lines `0..i` taken in order (line `i` included), the empty string if there is
none. A line without such a decoration leaves the value of the line before it
(the empty string for the first line). -/
theorem loadCommits_oldestTag (env : Env) (re : repo) (constraints : List GoString)
    (cs : Backboard.commits) (h : loadCommits env re constraints = .ok cs) :
    ∃ out, env.capture (gitLogArgs env re constraints) = .ok out
      ∧ cs.commits.length = (scanLines out).length
      ∧ (∀ (i : Nat) (c : commit), cs.commits[i]? = some c →
          c.oldestTag
            = lastReleaseTag [] (((scanLines out).take (i + 1)).flatMap decorations))
      ∧ (∀ (c : commit) (text : GoString), cs.commits[0]? = some c →
          (scanLines out)[0]? = some text →
          (decorations text).filterMap releaseTag = [] → c.oldestTag = [])
      ∧ (∀ (i : Nat) (c1 c2 : commit) (text : GoString), cs.commits[i]? = some c1 →
          cs.commits[i + 1]? = some c2 →
          (scanLines out)[i + 1]? = some text →
          (decorations text).filterMap releaseTag = [] → c2.oldestTag = c1.oldestTag) := by
  obtain ⟨out, hcap, _, hlen, hall⟩ := loadCommits_ok env re constraints cs h
  have hline : ∀ (i : Nat) (c : commit), cs.commits[i]? = some c →
      ∃ text, (scanLines out)[i]? = some text := by
    intro i c hc
    have hi : i < (scanLines out).length := by
      rw [← hlen]
      rcases Nat.lt_or_ge i cs.commits.length with h | h
      · exact h
      · rw [List.getElem?_eq_none h] at hc; cases hc
    exact ⟨(scanLines out)[i], List.getElem?_eq_getElem hi⟩
  have htag : ∀ (i : Nat) (c : commit), cs.commits[i]? = some c → c.oldestTag
      = lastReleaseTag [] (((scanLines out).take (i + 1)).flatMap decorations) := by
    intro i c hc
    obtain ⟨text, ht⟩ := hline i c hc
    exact (hall i text c ht hc).2.2
  refine ⟨out, hcap, hlen, htag, ?_, ?_⟩
  · intro c text hc ht hnone
    rw [htag 0 c hc]
    have : (scanLines out).take (0 + 1) = [text] := by
      cases hl : scanLines out with
      | nil => rw [hl] at ht; simp at ht
      | cons x rest => rw [hl] at ht; simp at ht; simp [ht]
    rw [this]
    simp only [List.flatMap_cons, List.flatMap_nil, List.append_nil]
    exact lastReleaseTag_of_none _ _ hnone
  · intro i c1 c2 text hc1 hc2 ht hnone
    rw [htag (i + 1) c2 hc2, htag i c1 hc1]
    have : (scanLines out).take (i + 1 + 1) = (scanLines out).take (i + 1) ++ [text] := by
      rw [List.take_succ, ht]
      rfl
    rw [this, List.flatMap_append, ← lastReleaseTag_append]
    simp only [List.flatMap_cons, List.flatMap_nil, List.append_nil]
    exact lastReleaseTag_of_none _ _ hnone

/-- C10. Every commit of a collection returned by `loadCommits` has an empty
body, its title is the subject field of its line, and its `MessageID` is the
digest of the title alone. For two lines with the same subject, whatever
their other fields, the two commits have the same `MessageID`, and the
fingerprint index maps it to a position at or after the later of the two. -/
theorem loadCommits_fingerprint_of_title (env : Env) (re : repo) (constraints : List GoString)
    (cs : Backboard.commits) (h : loadCommits env re constraints = .ok cs) :
    ∃ out, env.capture (gitLogArgs env re constraints) = .ok out
      ∧ (∀ c ∈ cs.commits, c.body = [] ∧ c.MessageID env.sha1 = env.sha1 c.title)
      ∧ (∀ (i : Nat) (text : GoString) (c : commit), (scanLines out)[i]? = some text →
          cs.commits[i]? = some c →
          subject text = some c.title)
      ∧ (∀ (i j : Nat) (ti tj : GoString) (ci cj : commit), i < j →
          (scanLines out)[i]? = some ti → (scanLines out)[j]? = some tj →
          subject ti = subject tj →
          cs.commits[i]? = some ci → cs.commits[j]? = some cj →
          ci.MessageID env.sha1 = cj.MessageID env.sha1
            ∧ ∃ p, cs.messageIDs (cj.MessageID env.sha1) = some p ∧ j ≤ p
                ∧ p < cs.commits.length) := by
  obtain ⟨out, hcap, hbuild, hlen, hall⟩ := loadCommits_ok env re constraints cs h
  have hbody : ∀ c ∈ cs.commits, c.body = [] := by
    intro c hc
    obtain ⟨i, hi, hget⟩ := List.getElem_of_mem hc
    have hi2 : i < (scanLines out).length := by rw [← hlen]; exact hi
    exact (hall i _ c (List.getElem?_eq_getElem hi2)
      (by rw [List.getElem?_eq_getElem hi, hget])).1
  have hmsg : ∀ c ∈ cs.commits, c.MessageID env.sha1 = env.sha1 c.title := by
    intro c hc
    simp [commit.MessageID, hbody c hc]
  refine ⟨out, hcap, fun c hc => ⟨hbody c hc, hmsg c hc⟩,
    fun i text c ht hc => (hall i text c ht hc).2.1, ?_⟩
  intro i j ti tj ci cj hij hti htj hsub hci hcj
  have hmi : ci ∈ cs.commits := List.getElem?_mem hci
  have hmj : cj ∈ cs.commits := List.getElem?_mem hcj
  have htitle : ci.title = cj.title := by
    have h1 := (hall i ti ci hti hci).2.1
    have h2 := (hall j tj cj htj hcj).2.1
    rw [hsub, h2] at h1
    exact (Option.some.inj h1).symm
  have heq : ci.MessageID env.sha1 = cj.MessageID env.sha1 := by
    rw [hmsg ci hmi, hmsg cj hmj, htitle]
  refine ⟨heq, ?_⟩
  obtain ⟨p, hp⟩ := (isLastPosition_exists (commit.MessageID env.sha1) cs.commits
    (cj.MessageID env.sha1)).2 ⟨cj, hmj, rfl⟩
  refine ⟨p, ?_, ?_, ?_⟩
  · rw [hbuild]
    exact (build_messageIDs_iff env.sha1 cs.commits _ p).2 hp
  · by_contra hlt
    exact hp.2 j cj (by omega) hcj rfl
  · obtain ⟨⟨c, hc, _⟩, _⟩ := hp
    rcases Nat.lt_or_ge p cs.commits.length with h | h
    · exact h
    · rw [List.getElem?_eq_none h] at hc; cases hc

/-! ## Runs on the example inputs -/

/-- C6 at its failing input: a request whose only label is not a backport
marker, synced into a storage without requests. The transaction body
succeeds with three `Exec` statements; `isPRUpToDate` then answers false for
the same record; and a second run of the body issues three more. -/
theorem syncPRBody_repeats_writes :
    (syncPRBody id 1 commits.zero exLabelPR exDB).1 = .ok ()
    ∧ (syncPRBody id 1 commits.zero exLabelPR exDB).2.execs = 3
    ∧ (isPRUpToDate exLabelPR (syncPRBody id 1 commits.zero exLabelPR exDB).2).1 = .ok false
    ∧ (syncPRBody id 1 commits.zero exLabelPR
        (syncPRBody id 1 commits.zero exLabelPR exDB).2).2.execs = 6 := by
  decide

/-- C7 fails as stated: the request is open and unmerged, its history load
fails with `exit status 128`, and `syncRepo` returns nil, with nothing written
for the request and the published struct refreshed. -/
theorem syncRepo_skips_open_request :
    exOpenPR.State = str "open" ∧ exOpenPR.MergedAt = none
    ∧ loadCommits (exEnv [exOpenPR]) exRepo (prConstraints exOpenPR)
        = .error (.error (str "exit status 128"))
    ∧ (syncRepo (exEnv [exOpenPR]) 1 0 exState).map
        (fun x => (x.1, x.2.db.tables, lastRefreshAt x.2 0))
        = some (.ok (), exDB.tables, some 1)
    ∧ lastRefreshAt exState 0 = some 0 := by
  refine ⟨by decide, by decide, by rfl, by decide!, by decide⟩

/-- C7, the amended statement at an open request whose history load fails
with `exit status 1`: `syncRepo` returns that error and leaves the state as it
was. -/
theorem syncRepo_failure_policy_witness :
    syncRepo (exEnv [exFailPR]) 1 0 exState
        = some (.error (.error (str "exit status 1")), exState)
      ∧ exState.heap = exState.heap :=
  (syncRepo_failure_policy (exEnv [exFailPR]) 1 0 exState exRepo [exFailPR] [] [] exFailPR exDB
    exState rfl rfl rfl rfl rfl).2.2 (str "exit status 1") exState (by rfl) (by decide)

/-- C8 at a run that succeeds: the example repository with no request to
sync. -/
theorem syncRepo_publish_witness :
    ∃ res s2, syncRepo (exEnv []) 1 0 exState = some (res, s2) ∧ res = .ok ()
      ∧ lastRefreshAt s2 0 = some 1
      ∧ (∀ f, res = .error f → ∀ a : Nat, a < exState.heap.length →
          s2.heap[a]? = exState.heap[a]?)
      ∧ (res = .ok () → ∃ (re rv : Backboard.repo) (sp sr : State),
          exState.heap[0]? = some (.repo re)
          ∧ sp.heap = exState.heap ++ [.repo re]
          ∧ Backboard.repo.refresh (exEnv []) exState.heap.length sp = (.ok (), sr)
          ∧ sr.heap[exState.heap.length]? = some (.repo rv)
          ∧ s2.heap = sr.heap.set 0 (.repo rv) ∧ s2.db = sr.db
          ∧ s2.heap[0]? = some (.repo rv)
          ∧ loadCommits (exEnv []) re [str "master"] = .ok rv.masterCommits
          ∧ (∃ a : Nat, rv.branchCommits = some a ∧ exState.heap.length < a)
          ∧ (∃ a : Nat, rv.branchMergeBases = some a ∧ exState.heap.length < a)
          ∧ (∃ a : Nat, rv.masterPRs = some a ∧ exState.heap.length < a)
          ∧ (∃ a : Nat, rv.branchPRs = some a ∧ exState.heap.length < a)
          ∧ rv.lastRefresh = (exEnv []).now
          ∧ rv.id = re.id ∧ rv.githubOwner = re.githubOwner ∧ rv.githubRepo = re.githubRepo
          ∧ rv.releaseBranches = re.releaseBranches
          ∧ ∀ a : Nat, a < exState.heap.length → a ≠ 0 →
              s2.heap[a]? = exState.heap[a]?) := by
  have hval : (syncRepo (exEnv []) 1 0 exState).map (fun x => (x.1, lastRefreshAt x.2 0))
      = some (.ok (), some 1) := by decide!
  rcases h : syncRepo (exEnv []) 1 0 exState with _ | ⟨res, s2⟩
  · rw [h] at hval; cases hval
  · rw [h] at hval
    simp only [Option.map_some', Option.some.injEq, Prod.mk.injEq] at hval
    have hthm := syncRepo_publish_all_or_nothing (exEnv []) 1 0 exState s2 res h
    exact ⟨res, s2, rfl, hval.1, hval.2, hthm.1, hthm.2⟩

/-- C9 at the example history: both commits carry `v1.2.3`, the tag `latest`
and the other decorations changing nothing. -/
theorem loadCommits_oldestTag_witness :
    ∃ cs, loadCommits (exEnv []) exRepo [str "master"] = .ok cs
      ∧ cs.commits.map (fun c => c.oldestTag) = [str "v1.2.3", str "v1.2.3"]
      ∧ ∃ out, (exEnv []).capture (gitLogArgs (exEnv []) exRepo [str "master"]) = .ok out
        ∧ cs.commits.length = (scanLines out).length
        ∧ (∀ (i : Nat) (c : commit), cs.commits[i]? = some c →
            c.oldestTag
              = lastReleaseTag [] (((scanLines out).take (i + 1)).flatMap decorations))
        ∧ (∀ (c : commit) (text : GoString), cs.commits[0]? = some c →
            (scanLines out)[0]? = some text →
            (decorations text).filterMap releaseTag = [] → c.oldestTag = [])
        ∧ (∀ (i : Nat) (c1 c2 : commit) (text : GoString), cs.commits[i]? = some c1 →
            cs.commits[i + 1]? = some c2 → (scanLines out)[i + 1]? = some text →
            (decorations text).filterMap releaseTag = [] → c2.oldestTag = c1.oldestTag) := by
  have hval : (loadCommits (exEnv []) exRepo [str "master"]).toOption.map
      (fun cs => cs.commits.map (fun c => c.oldestTag)) = some [str "v1.2.3", str "v1.2.3"] := by
    decide!
  rcases h : loadCommits (exEnv []) exRepo [str "master"] with e | cs
  · rw [h] at hval; cases hval
  · rw [h] at hval
    simp only [Except.toOption, Option.map_some', Option.some.injEq] at hval
    exact ⟨cs, rfl, hval, loadCommits_oldestTag (exEnv []) exRepo [str "master"] cs h⟩

/-- C10 at the example history: the two commits have the subject `fix`, and
the fingerprint index maps its digest to position 1. -/
theorem loadCommits_fingerprint_witness :
    ∃ cs, loadCommits (exEnv []) exRepo [str "master"] = .ok cs
      ∧ cs.messageIDs (str "fix") = some 1
      ∧ ∃ out, (exEnv []).capture (gitLogArgs (exEnv []) exRepo [str "master"]) = .ok out
        ∧ (∀ c ∈ cs.commits,
            c.body = [] ∧ c.MessageID (exEnv []).sha1 = (exEnv []).sha1 c.title)
        ∧ (∀ (i : Nat) (text : GoString) (c : commit), (scanLines out)[i]? = some text →
            cs.commits[i]? = some c → subject text = some c.title)
        ∧ (∀ (i j : Nat) (ti tj : GoString) (ci cj : commit), i < j →
            (scanLines out)[i]? = some ti → (scanLines out)[j]? = some tj →
            subject ti = subject tj →
            cs.commits[i]? = some ci → cs.commits[j]? = some cj →
            ci.MessageID (exEnv []).sha1 = cj.MessageID (exEnv []).sha1
              ∧ ∃ p, cs.messageIDs (cj.MessageID (exEnv []).sha1) = some p ∧ j ≤ p
                  ∧ p < cs.commits.length) := by
  have hval : (loadCommits (exEnv []) exRepo [str "master"]).toOption.map
      (fun cs => cs.messageIDs (str "fix")) = some (some 1) := by
    decide!
  rcases h : loadCommits (exEnv []) exRepo [str "master"] with e | cs
  · rw [h] at hval; cases hval
  · rw [h] at hval
    simp only [Except.toOption, Option.map_some', Option.some.injEq] at hval
    exact ⟨cs, rfl, hval,
      loadCommits_fingerprint_of_title (exEnv []) exRepo [str "master"] cs h⟩

end Backboard
